import Mathlib

/-!
# DevLog — verification of the validated local persistence layer

Shallow embedding of the DevLog storage module (`src/utils/storage.ts`) and of
the secure-storage wrapper (`src/utils/security.ts`, class `SecureStorage`),
together with a model of the validation layer (`src/utils/validation.ts`,
whose source is not part of the repository snapshot; it is modelled from the
spec, §4.1).

Conventions of the embedding:
* JavaScript `Date` values are modelled as `Nat` milliseconds.
* The raw value persisted under the `devlog_entries` key is modelled by
  `Stored`: absent, the empty string, a non-empty string `JSON.parse` rejects,
  or a string that parses to a `Json` tree (`JSON.parse (JSON.stringify j) = j`
  is reified by keeping the tree).
* Exceptions are modelled by `Except Err`; every operation returns the final
  state of the stored value next to its result, so that partial effects made
  before a throw stay observable.
-/

namespace DevLog

/-! ## Fail-fast list traversals

JavaScript `Array.prototype.map` with a throwing callback either produces all
results or aborts the whole map; these explicit traversals model that. -/

/-- Fail-fast map in the `Option` monad: models a JS `.map` whose callback may
throw, the throw aborting the whole traversal. -/
def mapMo (f : α → Option β) : List α → Option (List β)
  | [] => some []
  | x :: xs =>
    match f x, mapMo f xs with
    | some y, some ys => some (y :: ys)
    | _, _ => none

/-- Fail-fast map in the `Except` monad. -/
def mapME (f : α → Except ε β) : List α → Except ε (List β)
  | [] => .ok []
  | x :: xs =>
    match f x, mapME f xs with
    | .ok y, .ok ys => .ok (y :: ys)
    | .error e, _ => .error e
    | _, .error e => .error e

/-- First index satisfying the predicate: models `Array.prototype.findIndex`
(with `Option` instead of the `-1` sentinel). -/
def findIdxO (p : α → Bool) : List α → Option Nat
  | [] => none
  | x :: xs =>
    if p x then some 0
    else (findIdxO p xs).map (· + 1)

/-! ## Validation layer

`src/utils/validation.ts` is imported by the storage module but its source is
not in the repository snapshot; everything in this section is modelled from
the spec (§4.1). -/

/-- A whitespace character, as trimmed away by the text validators. -/
def isWsChar (c : Char) : Bool := c.isWhitespace

/-- Drop leading and trailing whitespace from a character list (the model of
`String.prototype.trim`). -/
def trimChars (l : List Char) : List Char :=
  (((l.dropWhile isWsChar).reverse.dropWhile isWsChar)).reverse

/-- Modelled from the spec: `validateAndSanitizeText` "strips/escapes
characters that could be interpreted as markup".  The model escapes the two
markup delimiters as HTML entities; `&` is left alone so that sanitization is
idempotent, which the spec's round-trip property (§8) requires. -/
def escapeChar (c : Char) : List Char :=
  if c = '<' then ['&', 'l', 't', ';']
  else if c = '>' then ['&', 'g', 't', ';']
  else [c]

/-- Escape every markup character in a list. -/
def escapeMarkup : List Char → List Char
  | [] => []
  | c :: cs => escapeChar c ++ escapeMarkup cs

/-- Modelled from the spec: maximum length of a free-text message accepted by
`validateAndSanitizeText` (the spec says "length-bounded" without a number). -/
def MAX_MESSAGE_LENGTH : Nat := 10000

/-- Modelled from the spec: length bound used for a single tag ("the text
rules at a tag-appropriate length bound"). -/
def MAX_TAG_LENGTH : Nat := 50

/-- Modelled from the spec: length bound for a category name. -/
def MAX_CATEGORY_LENGTH : Nat := 50

/-- Modelled from the spec: `validateAndSanitizeText` at an arbitrary length
bound — trims, escapes markup, fails on empty-after-trim or oversize input.
The length bound is enforced on the escaped text so that a value that was
accepted once is accepted unchanged when it is re-validated on read. -/
def sanitizeTextWith (maxLen : Nat) (raw : String) : Option String :=
  let t := escapeMarkup (trimChars raw.toList)
  if t.isEmpty then none
  else if maxLen < t.length then none
  else some (String.mk t)

/-- Modelled from the spec: `validateAndSanitizeText` for the message field. -/
def validateAndSanitizeText (raw : String) : Option String :=
  sanitizeTextWith MAX_MESSAGE_LENGTH raw

/-- Modelled from the spec: one tag sanitized "with the text rules at a
tag-appropriate length bound". -/
def sanitizeTag (raw : String) : Option String :=
  sanitizeTextWith MAX_TAG_LENGTH raw

/-- Modelled from the spec: `validateTags` — requires a sequence, sanitizes
every element, failing fast if any element fails (the policy the spec
recommends in §9). -/
def validateTags (l : List String) : Option (List String) :=
  mapMo sanitizeTag l

/-- A character allowed in a category name ("no free-form punctuation"). -/
def isCategoryChar (c : Char) : Bool :=
  c.isAlphanum || c = ' ' || c = '-' || c = '_'

/-- Modelled from the spec: `validateAndSanitizeCategory` — same discipline as
text with a shorter bound, rejecting free-form punctuation outright (markup
can never appear, so no escaping is needed). -/
def validateAndSanitizeCategory (raw : String) : Option String :=
  let t := trimChars raw.toList
  if t.isEmpty then none
  else if MAX_CATEGORY_LENGTH < t.length then none
  else if t.all isCategoryChar then some (String.mk t) else none

/-- A lowercase hexadecimal digit, as produced by `generateSecureId`. -/
def isHexChar (c : Char) : Bool :=
  c.isDigit || ('a' ≤ c && c ≤ 'f')

/-- The 32-character hex format produced by `generateSecureId`
(`src/utils/security.ts`: 16 random bytes rendered as two hex digits each). -/
def isHexId (s : String) : Bool :=
  s.toList.length == 32 && s.toList.all isHexChar

/-- The 8-4-4-4-12 format produced by `crypto.randomUUID`. -/
def isUuid (s : String) : Bool :=
  s.toList.length == 36 &&
    (s.toList.enum.all fun ic =>
      if ic.1 == 8 || ic.1 == 13 || ic.1 == 18 || ic.1 == 23 then ic.2 == '-'
      else isHexChar ic.2)

/-- A string in one of the two formats the id generator produces. -/
def isGeneratedIdFormat (s : String) : Bool :=
  isHexId s || isUuid s

/-- Modelled from the spec: `validateEntryId` accepts only strings matching
the identifier format the generator produces (fixed-length hex, or UUID) and
returns them unchanged; fails otherwise. -/
def validateEntryId (s : String) : Option String :=
  if isGeneratedIdFormat s then some s else none

/-! ### Timestamp codec

Modelled from the spec: timestamps serialize as ISO-8601 strings and
deserialize back to a timestamp value.  The model renders the millisecond
count in decimal followed by the `Z` suffix — enough structure for parsing to
be partial (garbage strings are rejected) and for the encode/decode round
trip, which is all the storage claims depend on. -/

/-- Largest representable JS `Date` in milliseconds (`±8.64e15`); the spec's
"sane range" check for timestamps. -/
def MAX_TIMESTAMP : Nat := 8640000000000000

/-- Little-endian decimal digits, with the number itself as structural fuel so
that the definition reduces in the kernel. -/
def digitsRevAux : Nat → Nat → List Nat
  | 0, _ => []
  | _ + 1, 0 => []
  | fuel + 1, n + 1 => ((n + 1) % 10) :: digitsRevAux fuel ((n + 1) / 10)

/-- Little-endian decimal digits of a natural number. -/
def digitsRev (n : Nat) : List Nat := digitsRevAux n n

/-- Value of a little-endian digit list. -/
def ofDigitsRev : List Nat → Nat
  | [] => 0
  | d :: ds => d + 10 * ofDigitsRev ds

/-- Decimal digit to character. -/
def digitToChar (d : Nat) : Char := Char.ofNat (48 + d)

/-- Character to decimal digit, if it is one. -/
def charToDigit (c : Char) : Option Nat :=
  if c.isDigit then some (c.toNat - 48) else none

/-- Render a timestamp as its stand-in ISO-8601 string. -/
def timeToIso (t : Nat) : String :=
  String.mk ((digitsRev t).reverse.map digitToChar ++ ['Z'])

/-- Parse the stand-in ISO-8601 format back to a millisecond count. -/
def parseIsoChars (cs : List Char) : Option Nat :=
  match cs.getLast? with
  | some 'Z' => (mapMo charToDigit cs.dropLast).map fun ds => ofDigitsRev ds.reverse
  | _ => none

/-- Modelled from the spec: `validateTimestamp` on a serialized (string)
value — fails if unparsable or out of the sane `Date` range. -/
def validateTimestampStr (s : String) : Option Nat :=
  match parseIsoChars s.toList with
  | some t => if t ≤ MAX_TIMESTAMP then some t else none
  | none => none

/-- Modelled from the spec: `validateTimestamp` on an in-memory `Date`
value — fails only when out of the sane range. -/
def validateTimestampDate (t : Nat) : Option Nat :=
  if t ≤ MAX_TIMESTAMP then some t else none

/-! ## Data model (`src/types/index.ts`) -/

/-- `LogEntry` from `src/types/index.ts`; `timestamp` is a `Date`, modelled as
milliseconds. -/
structure LogEntry where
  id : String
  message : String
  tags : List String
  category : Option String
  timestamp : Nat

instance : Inhabited LogEntry := ⟨⟨"", "", [], none, 0⟩⟩

/-- `Statistics` from `src/types/index.ts`. -/
structure Statistics where
  totalEntries : Nat
  totalTags : Nat
  totalCategories : Nat
  mostUsedTags : List (String × Nat)
  mostUsedCategories : List (String × Nat)

/-- The error kinds of §7, standing for the `Error` values the modules throw.
`domException` stands for a raw platform-level exception (a `DOMException`
escaping `localStorage.setItem`), which per the spec must never reach the
caller undisguised. -/
inductive Err where
  | validationError (field : String)
  | notFoundError
  | capacityExceededError
  | quotaExceededError (msg : String)
  | domException (name : String)

/-! ## JSON trees and the raw stored value -/

/-- A parsed JSON value.  `obj` carries the object's fields in property order;
`JSON.parse` collapses duplicate keys, so field lists with a repeated key do
not correspond to any parse result. -/
inductive Json where
  | null
  | bool (b : Bool)
  | num (n : Int)
  | str (s : String)
  | arr (elts : List Json)
  | obj (fields : List (String × Json))

/-- Property access `o[k]` on a parsed JSON object: `none` is JavaScript
`undefined`. -/
def jGet (fields : List (String × Json)) (k : String) : Option Json :=
  match fields with
  | [] => none
  | (k', v) :: rest => if k' = k then some v else jGet rest k

/-- JavaScript truthiness of a parsed JSON value (`undefined` is handled at
the `Option` layer by the call sites). -/
def Json.truthy : Json → Bool
  | .null => false
  | .bool b => b
  | .num n => n != 0
  | .str s => !s.isEmpty
  | .arr _ => true
  | .obj _ => true

/-- Byte size of the serialized JSON text, as measured by
`new Blob([value]).size` in `SecureStorage.setItem` (string escape expansion
is not modelled; no claim touches the exact boundary). -/
def Json.serSize : Json → Nat
  | .null => 4
  | .bool b => if b then 4 else 5
  | .num _ => 20
  | .str s => 2 + s.utf8ByteSize
  | .arr elts => 1 + serSizeList elts
  | .obj fields => 1 + serSizeFields fields
where
  serSizeList : List Json → Nat
    | [] => 1
    | j :: js => j.serSize + 1 + serSizeList js
  serSizeFields : List (String × Json) → Nat
    | [] => 1
    | (k, j) :: fs => 3 + k.utf8ByteSize + j.serSize + 1 + serSizeFields fs

/-- The raw value persisted under the `devlog_entries` key, classified by
exactly the distinctions the code inspects: `getItem` returning `null`
(`absent`), the empty string (falsy in the `if (!stored)` guard and rejected
by `JSON.parse`), a non-empty string `JSON.parse` throws on, or a string
parsing to a `Json` tree. -/
inductive Stored where
  | absent
  | emptyStr
  | notJson
  | json (j : Json)

/-- The 5 MB limit `SecureStorage.setItem` enforces before writing. -/
def STORAGE_SIZE_LIMIT : Nat := 5 * 1024 * 1024

/-- The bare `localStorage.setItem` call: the platform may throw a raw
`QuotaExceededError` `DOMException` (the `quotaFail` flag), otherwise the new
value replaces the old one. -/
def rawSetItem (quotaFail : Bool) (j : Json) : Except Err Stored :=
  if quotaFail then .error (.domException "QuotaExceededError")
  else .ok (.json j)

/-- `SecureStorage.setItem` (`src/utils/security.ts` lines 74–95),
specialized to the fixed `entries` key (which passes the key regex): size
pre-check against the 5 MB limit, then the platform write; the surrounding
`catch` rewrites a raw `QuotaExceededError` `DOMException` into the
descriptive quota error and rethrows everything else unchanged. -/
def setItem (quotaFail : Bool) (j : Json) : Except Err Stored :=
  let attempt : Except Err Stored :=
    if STORAGE_SIZE_LIMIT < j.serSize then
      .error (.quotaExceededError "Storage quota exceeded")
    else rawSetItem quotaFail j
  match attempt with
  | .error (.domException "QuotaExceededError") =>
      .error (.quotaExceededError "Storage quota exceeded. Please clear some entries.")
  | r => r

/-! ## The storage module (`src/utils/storage.ts`) -/

/-- The `tags` component of the callback:
`Array.isArray(e.tags) ? validateTags(e.tags) : []` — a missing or non-array
field falls back to `[]`, an array is validated element-wise (a non-string
element makes the validator throw). -/
def parseTagsField (fields : List (String × Json)) : Option (List String) :=
  match jGet fields "tags" with
  | some (.arr elts) =>
    mapMo (fun e => match e with | .str s => sanitizeTag s | _ => none) elts
  | _ => some []

/-- The `category` component of the callback:
`e.category ? validateAndSanitizeCategory(e.category) : undefined` — a falsy
(absent, empty, zero, …) value becomes `undefined`, anything truthy goes
through the category validator (which throws on non-strings). -/
def parseCategoryField (fields : List (String × Json)) : Option (Option String) :=
  match jGet fields "category" with
  | some c =>
    if c.truthy then
      match c with
      | .str s => (validateAndSanitizeCategory s).map some
      | _ => none
    else some none
  | none => some none

/-- The `timestamp` component of the callback:
`validateTimestamp(e.timestamp)` on the raw JSON field. -/
def parseTimestampField (fields : List (String × Json)) : Option Nat :=
  match jGet fields "timestamp" with
  | some (.str s) => validateTimestampStr s
  | _ => none

/-- The per-element body of the `parsed.map` callback in `getEntries`
(lines 176–195): the element must be a non-null object (a JSON array also
passes the `typeof` check, but then its `id` property is `undefined` and the
required-field check throws) with string `id` and `message`; each field is
then re-validated through the helpers above.  `none` models the callback
throwing, which makes the whole read fail closed. -/
def parseStoredEntry (j : Json) : Option LogEntry :=
  match j with
  | .obj fields =>
    match jGet fields "id", jGet fields "message" with
    | some (.str rawId), some (.str rawMsg) =>
      match validateEntryId rawId, validateAndSanitizeText rawMsg,
            parseTagsField fields, parseCategoryField fields,
            parseTimestampField fields with
      | some id, some msg, some tags, some cat, some ts =>
        some ⟨id, msg, tags, cat, ts⟩
      | _, _, _, _, _ => none
    | _, _ => none
  | _ => none

/-- `storage.getEntries` (lines 163–203).  Returns the entries together with
the stored value as it stands afterwards: on any failure inside the `try`
the `catch` clears the key and returns `[]`; the `if (!stored) return []`
guard fires for an absent key and for a stored empty string (both falsy), in
which case nothing is cleared.  No error ever escapes (the return type has no
`Except`). -/
def getEntries (s : Stored) : List LogEntry × Stored :=
  match s with
  | .absent => ([], .absent)
  | .emptyStr => ([], .emptyStr)
  | .notJson => ([], .absent)
  | .json j =>
    match j with
    | .arr elts =>
      match mapMo parseStoredEntry elts with
      | some entries => (entries, .json (.arr elts))
      | none => ([], .absent)
    | _ => ([], .absent)

/-- The per-entry body of the validation map in `saveEntries`
(lines 208–214): every field re-validated, a falsy (empty) category becoming
`undefined`, the timestamp rendered back to its ISO string by the caller. -/
def validateEntryForSave (e : LogEntry) : Except Err LogEntry :=
  match validateEntryId e.id with
  | none => .error (.validationError "id")
  | some id =>
  match validateAndSanitizeText e.message with
  | none => .error (.validationError "message")
  | some msg =>
  match validateTags e.tags with
  | none => .error (.validationError "tags")
  | some tags =>
  match ((match e.category with
         | some c => if c.isEmpty then .ok none else
             match validateAndSanitizeCategory c with
             | some c' => .ok (some c')
             | none => .error (.validationError "category")
         | none => .ok none) : Except Err (Option String)) with
  | .error er => .error er
  | .ok cat =>
  match validateTimestampDate e.timestamp with
  | none => .error (.validationError "timestamp")
  | some ts => .ok ⟨id, msg, tags, cat, ts⟩

/-- The JSON object `saveEntries` serializes for one validated entry:
property order `id`, `message`, `tags`, `category`, `timestamp`;
`JSON.stringify` drops the `category` property when it is `undefined`. -/
def entryToStoredJson (e : LogEntry) : Json :=
  .obj ([("id", .str e.id), ("message", .str e.message),
         ("tags", .arr (e.tags.map .str))]
    ++ (match e.category with
        | some c => [("category", .str c)]
        | none => [])
    ++ [("timestamp", .str (timeToIso e.timestamp))])

/-- `storage.saveEntries` (lines 205–222): re-validate every entry
(fail-fast), serialize the whole collection, write it through
`SecureStorage.setItem`; every error is rethrown to the caller and leaves the
stored value as it was. -/
def saveEntries (quotaFail : Bool) (entries : List LogEntry) (s : Stored) :
    Except Err Unit × Stored :=
  match mapME validateEntryForSave entries with
  | .error er => (.error er, s)
  | .ok validated =>
    match setItem quotaFail (.arr (validated.map entryToStoredJson)) with
    | .ok s' => (.ok (), s')
    | .error er => (.error er, s)

/-- The input of `addEntry`: `Omit<LogEntry, 'id' | 'timestamp'>`, whose
optional `category` may be absent/`undefined` (`none`). -/
structure NewEntryInput where
  message : String
  tags : List String
  category : Option String

/-- The `validatedEntry` object `addEntry` builds first (lines 226–230):
message and tags validated, a falsy (empty) category becoming `undefined`. -/
def validateAddInput (input : NewEntryInput) :
    Except Err (String × List String × Option String) :=
  match validateAndSanitizeText input.message with
  | none => .error (.validationError "message")
  | some msg =>
  match validateTags input.tags with
  | none => .error (.validationError "tags")
  | some tags =>
  match ((match input.category with
         | some c => if c.isEmpty then .ok none else
             match validateAndSanitizeCategory c with
             | some c' => .ok (some c')
             | none => .error (.validationError "category")
         | none => .ok none) : Except Err (Option String)) with
  | .error er => .error er
  | .ok cat => .ok (msg, tags, cat)

/-- `storage.addEntry` (lines 224–253).  `freshId` stands for the id produced
by `crypto.randomUUID()` / `generateSecureId()` and `now` for `new Date()`.
Input validation first, then the capacity check against 10 000, then append
and persist. -/
def addEntry (quotaFail : Bool) (freshId : String) (now : Nat)
    (input : NewEntryInput) (s : Stored) : Except Err LogEntry × Stored :=
  match validateAddInput input with
  | .error er => (.error er, s)
  | .ok (msg, tags, cat) =>
    let (entries, s₁) := getEntries s
    if 10000 ≤ entries.length then (.error .capacityExceededError, s₁)
    else
      let newEntry : LogEntry := ⟨freshId, msg, tags, cat, now⟩
      match saveEntries quotaFail (entries ++ [newEntry]) s₁ with
      | (.ok (), s₂) => (.ok newEntry, s₂)
      | (.error er, s₂) => (.error er, s₂)

/-- `storage.deleteEntry` (lines 255–260): validate the id, filter it out of
the collection (a no-op when absent), persist. -/
def deleteEntry (quotaFail : Bool) (id : String) (s : Stored) :
    Except Err Unit × Stored :=
  match validateEntryId id with
  | none => (.error (.validationError "id"), s)
  | some vid =>
    let (entries, s₁) := getEntries s
    saveEntries quotaFail (entries.filter fun e => e.id ≠ vid) s₁

/-- The partial update accepted by `updateEntry` (`Partial<LogEntry>`); a
field set to `none` is absent (or explicitly `undefined`, which
`!== undefined` treats the same).  `id` and `timestamp` may be supplied but
the code never reads them. -/
structure EntryUpdates where
  id : Option String := none
  message : Option String := none
  tags : Option (List String) := none
  category : Option String := none
  timestamp : Option Nat := none

/-- The `validatedUpdates` object `updateEntry` builds (lines 272–281): only
the fields present in the partial update are validated; a present-but-empty
category yields an explicit `undefined` (`some none`), which will overwrite
the merged entry's field.  `u.id` and `u.timestamp` are never read. -/
def validateUpdates (u : EntryUpdates) :
    Except Err (Option String × Option (List String) × Option (Option String)) :=
  match ((match u.message with
         | none => .ok none
         | some m =>
           match validateAndSanitizeText m with
           | some m' => .ok (some m')
           | none => .error (.validationError "message")) :
           Except Err (Option String)) with
  | .error er => .error er
  | .ok vmsg =>
  match ((match u.tags with
         | none => .ok none
         | some ts =>
           match validateTags ts with
           | some ts' => .ok (some ts')
           | none => .error (.validationError "tags")) :
           Except Err (Option (List String))) with
  | .error er => .error er
  | .ok vtags =>
  match ((match u.category with
         | none => .ok none
         | some c =>
           if c.isEmpty then .ok (some none) else
           match validateAndSanitizeCategory c with
           | some c' => .ok (some (some c'))
           | none => .error (.validationError "category")) :
           Except Err (Option (Option String))) with
  | .error er => .error er
  | .ok vcat => .ok (vmsg, vtags, vcat)

/-- The spread merge `{ ...entries[index], ...validatedUpdates }`: a field
present in `validatedUpdates` overwrites (even with an explicit `undefined`
category); `id` and `timestamp` are never in `validatedUpdates`, so they
always survive from the old entry. -/
def mergeEntry (old : LogEntry) (vmsg : Option String)
    (vtags : Option (List String)) (vcat : Option (Option String)) : LogEntry :=
  { old with
    message := vmsg.getD old.message
    tags := vtags.getD old.tags
    category := match vcat with
                | none => old.category
                | some c => c }

/-- `storage.updateEntry` (lines 262–285): validate the id, find the entry
(`NotFoundError` when absent), validate only the fields present in the
partial update, merge them over the existing entry — never touching `id` or
`timestamp` — and persist. -/
def updateEntry (quotaFail : Bool) (id : String) (u : EntryUpdates)
    (s : Stored) : Except Err Unit × Stored :=
  match validateEntryId id with
  | none => (.error (.validationError "id"), s)
  | some vid =>
    let (entries, s₁) := getEntries s
    match findIdxO (fun e => e.id = vid) entries with
    | none => (.error .notFoundError, s₁)
    | some i =>
      match validateUpdates u with
      | .error er => (.error er, s₁)
      | .ok (vmsg, vtags, vcat) =>
        let merged := mergeEntry (entries.getD i default) vmsg vtags vcat
        saveEntries quotaFail (entries.set i merged) s₁

/-- One step of building `tagCounts` / `categoryCounts`
(`tagCounts[tag] = (tagCounts[tag] || 0) + 1`): a JS object keyed by strings,
modelled as an association list in property order.  (JavaScript enumerates
integer-like keys first; no claim depends on the pre-sort enumeration order,
so insertion order is used throughout.) -/
def bumpCount (counts : List (String × Nat)) (k : String) : List (String × Nat) :=
  if counts.any (fun p => p.1 = k) then
    counts.map fun p => if p.1 = k then (p.1, p.2 + 1) else p
  else counts ++ [(k, 1)]

/-- The tag frequency table of `getStatistics` (lines 292–299). -/
def tagCountsOf (entries : List LogEntry) : List (String × Nat) :=
  entries.foldl (fun acc e => e.tags.foldl bumpCount acc) []

/-- The category frequency table of `getStatistics` (only present categories
are counted — `if (entry.category)`). -/
def categoryCountsOf (entries : List LogEntry) : List (String × Nat) :=
  entries.foldl (fun acc e =>
    match e.category with
    | some c => bumpCount acc c
    | none => acc) []

/-- Stable insertion of one pair into a list sorted by descending count:
together with `sortByCountDesc` this models the stable
`.sort(([, a], [, b]) => b - a)`. -/
def insertDesc (p : String × Nat) : List (String × Nat) → List (String × Nat)
  | [] => [p]
  | q :: qs => if q.2 ≤ p.2 then p :: q :: qs else q :: insertDesc p qs

/-- Stable sort by descending count. -/
def sortByCountDesc (l : List (String × Nat)) : List (String × Nat) :=
  l.foldr insertDesc []

/-- `storage.getStatistics` (lines 287–316): recomputed from a fresh read on
every call (the read may clear a corrupted blob, hence the returned state). -/
def getStatistics (s : Stored) : Statistics × Stored :=
  let (entries, s₁) := getEntries s
  let tc := tagCountsOf entries
  let cc := categoryCountsOf entries
  ({ totalEntries := entries.length
     totalTags := tc.length
     totalCategories := cc.length
     mostUsedTags := (sortByCountDesc tc).take 10
     mostUsedCategories := (sortByCountDesc cc).take 10 }, s₁)

/-- All tags of a collection, in order. -/
def allTags (es : List LogEntry) : List String :=
  (es.map LogEntry.tags).flatten

/-- All present categories of a collection, in order. -/
def allCategories (es : List LogEntry) : List String :=
  es.filterMap LogEntry.category

/-! ## Lemmas: the fail-fast traversals -/

theorem mapMo_fixed {f : α → Option α} :
    ∀ {l : List α}, (∀ x ∈ l, f x = some x) → mapMo f l = some l := by
  intro l
  induction l with
  | nil => intro _; rfl
  | cons x xs ih =>
    intro h
    have hx := h x (List.mem_cons_self x xs)
    have hxs := ih fun y hy => h y (List.mem_cons_of_mem x hy)
    simp [mapMo, hx, hxs]

theorem mapMo_map {f : β → Option α} {g : α → β} :
    ∀ {l : List α}, (∀ x ∈ l, f (g x) = some x) → mapMo f (l.map g) = some l := by
  intro l
  induction l with
  | nil => intro _; rfl
  | cons x xs ih =>
    intro h
    have hx := h x (List.mem_cons_self x xs)
    have hxs := ih fun y hy => h y (List.mem_cons_of_mem x hy)
    simp [mapMo, hx, hxs]

theorem mapMo_mem_some {f : α → Option β} :
    ∀ {l : List α} {r : List β}, mapMo f l = some r →
      ∀ y ∈ r, ∃ x ∈ l, f x = some y := by
  intro l
  induction l with
  | nil =>
    intro r hr y hy
    simp [mapMo] at hr
    subst hr
    exact absurd hy (List.not_mem_nil y)
  | cons x xs ih =>
    intro r hr y hy
    rcases hfx : f x with _ | z
    · simp [mapMo, hfx] at hr
    · rcases hrec : mapMo f xs with _ | zs
      · simp [mapMo, hfx, hrec] at hr
      · simp [mapMo, hfx, hrec] at hr
        subst hr
        rcases List.mem_cons.1 hy with h | h
        · exact ⟨x, List.mem_cons_self x xs, h ▸ hfx⟩
        · rcases ih hrec y h with ⟨x', hx', hfx'⟩
          exact ⟨x', List.mem_cons_of_mem x hx', hfx'⟩

theorem mapMo_eq_none_of_mem {f : α → Option β} :
    ∀ {l : List α} {x : α}, x ∈ l → f x = none → mapMo f l = none := by
  intro l
  induction l with
  | nil => intro x hx; exact absurd hx (List.not_mem_nil x)
  | cons a as ih =>
    intro x hx hfx
    rcases List.mem_cons.1 hx with h | h
    · subst h; simp [mapMo, hfx]
    · have := ih h hfx
      simp [mapMo, this]

theorem mapME_fixed {ε : Type} {f : α → Except ε α} :
    ∀ {l : List α}, (∀ x ∈ l, f x = .ok x) → mapME f l = .ok l := by
  intro l
  induction l with
  | nil => intro _; rfl
  | cons x xs ih =>
    intro h
    have hx := h x (List.mem_cons_self x xs)
    have hxs := ih fun y hy => h y (List.mem_cons_of_mem x hy)
    simp [mapME, hx, hxs]

/-! ## Lemmas: trimming and markup escaping -/

/-- The two edge conditions `trimChars` establishes: "no whitespace at either
end". -/
def noEdgeWs (l : List Char) : Bool :=
  (match l.head? with | none => true | some c => !isWsChar c) &&
  (match l.getLast? with | none => true | some c => !isWsChar c)

theorem head?_dropWhile_isWs (l : List Char) :
    ∀ c, (l.dropWhile isWsChar).head? = some c → isWsChar c = false := by
  intro c hc
  have := List.head?_dropWhile_not isWsChar l
  rw [hc] at this
  exact this

theorem getLast?_dropWhile_ne_nil {l : List Char}
    (h : l.dropWhile isWsChar ≠ []) :
    (l.dropWhile isWsChar).getLast? = l.getLast? := by
  induction l with
  | nil => rfl
  | cons a as ih =>
    by_cases ha : isWsChar a
    · rw [List.dropWhile_cons, if_pos ha] at h ⊢
      cases as with
      | nil => exact absurd rfl h
      | cons b bs => rw [ih h, List.getLast?_cons_cons]
    · rw [List.dropWhile_cons, if_neg ha]

theorem dropWhile_eq_self_of_head (l : List Char)
    (h : ∀ c, l.head? = some c → isWsChar c = false) :
    l.dropWhile isWsChar = l := by
  cases l with
  | nil => rfl
  | cons a as =>
    have := h a rfl
    simp [List.dropWhile_cons, this]

theorem noEdgeWs_trimChars (l : List Char) : noEdgeWs (trimChars l) = true := by
  unfold trimChars noEdgeWs
  set u := l.dropWhile isWsChar with hu
  set v := u.reverse.dropWhile isWsChar with hv
  rcases hvn : v with _ | ⟨c, cs⟩
  · simp
  · rw [← hvn]
    have hvne : v ≠ [] := by rw [hvn]; exact List.cons_ne_nil c cs
    rw [Bool.and_eq_true]
    constructor
    · -- head of the reversal is the last of `v`, which survives from `u`
      rw [List.head?_reverse]
      have hlast : v.getLast? = u.reverse.getLast? := by
        rw [hv]; exact getLast?_dropWhile_ne_nil (hv ▸ hvne)
      rw [hlast, List.getLast?_reverse]
      rcases hh : u.head? with _ | c'
      · simp
      · have := head?_dropWhile_isWs l c' (hu ▸ hh)
        simp [this]
    · rw [List.getLast?_reverse]
      rcases hh : v.head? with _ | c'
      · simp
      · have := head?_dropWhile_isWs u.reverse c' (hv ▸ hh)
        simp [this]

theorem trimChars_eq_self_of_noEdgeWs {l : List Char}
    (h : noEdgeWs l = true) : trimChars l = l := by
  unfold noEdgeWs at h
  have h1 : ∀ c, l.head? = some c → isWsChar c = false := by
    intro c hc
    rw [hc] at h
    rcases hb : isWsChar c with _ | _
    · rfl
    · simp [hb] at h
  have h2 : ∀ c, l.getLast? = some c → isWsChar c = false := by
    intro c hc
    rw [hc] at h
    rcases hb : isWsChar c with _ | _
    · rfl
    · simp [hb] at h
  unfold trimChars
  rw [dropWhile_eq_self_of_head l h1]
  have : l.reverse.dropWhile isWsChar = l.reverse := by
    apply dropWhile_eq_self_of_head
    intro c hc
    rw [List.head?_reverse] at hc
    exact h2 c hc
  rw [this, List.reverse_reverse]

theorem escapeChar_ne_nil (c : Char) : escapeChar c ≠ [] := by
  unfold escapeChar
  by_cases h1 : c = '<'
  · simp [h1]
  · by_cases h2 : c = '>' <;> simp [h1, h2]

theorem escapeMarkup_append (a b : List Char) :
    escapeMarkup (a ++ b) = escapeMarkup a ++ escapeMarkup b := by
  induction a with
  | nil => rfl
  | cons c cs ih => simp [escapeMarkup, ih]

/-- No markup delimiter occurs in the list. -/
def noMarkup (l : List Char) : Bool :=
  l.all fun c => !(c = '<') && !(c = '>')

theorem noMarkup_escapeChar (c : Char) : noMarkup (escapeChar c) = true := by
  unfold escapeChar noMarkup
  by_cases h1 : c = '<'
  · simp [h1]
  · by_cases h2 : c = '>'
    · simp [h1, h2]
    · simp [h1, h2]

theorem noMarkup_escapeMarkup (l : List Char) : noMarkup (escapeMarkup l) = true := by
  induction l with
  | nil => rfl
  | cons c cs ih =>
    show noMarkup (escapeChar c ++ escapeMarkup cs) = true
    have hc := noMarkup_escapeChar c
    unfold noMarkup at hc ih ⊢
    rw [List.all_append, hc, ih]
    rfl

theorem escapeMarkup_eq_self_of_noMarkup {l : List Char}
    (h : noMarkup l = true) : escapeMarkup l = l := by
  induction l with
  | nil => rfl
  | cons c cs ih =>
    unfold noMarkup at h
    rw [List.all_cons, Bool.and_eq_true] at h
    have hc := h
    have h1 : ¬(c = '<') := by
      intro he
      rw [he] at hc
      exact absurd hc.1 (by decide)
    have h2 : ¬(c = '>') := by
      intro he
      rw [he] at hc
      exact absurd hc.1 (by decide)
    show escapeChar c ++ escapeMarkup cs = c :: cs
    rw [ih hc.2]
    unfold escapeChar
    simp [h1, h2]

theorem escapeMarkup_ne_nil {l : List Char} (h : l ≠ []) :
    escapeMarkup l ≠ [] := by
  cases l with
  | nil => exact absurd rfl h
  | cons c cs =>
    show escapeChar c ++ escapeMarkup cs ≠ []
    intro he
    exact escapeChar_ne_nil c (List.append_eq_nil.1 he).1

theorem head?_escapeChar_not_ws {c : Char} (h : isWsChar c = false) :
    ∀ c', (escapeChar c).head? = some c' → isWsChar c' = false := by
  intro c' hc'
  unfold escapeChar at hc'
  by_cases h1 : c = '<'
  · simp [h1] at hc'
    subst hc'
    rfl
  · by_cases h2 : c = '>'
    · simp [h1, h2] at hc'
      subst hc'
      rfl
    · simp [h1, h2] at hc'
      subst hc'
      exact h

theorem getLast?_escapeChar_not_ws {c : Char} (h : isWsChar c = false) :
    ∀ c', (escapeChar c).getLast? = some c' → isWsChar c' = false := by
  intro c' hc'
  unfold escapeChar at hc'
  by_cases h1 : c = '<'
  · simp [h1] at hc'
    subst hc'
    rfl
  · by_cases h2 : c = '>'
    · simp [h1, h2] at hc'
      subst hc'
      rfl
    · simp [h1, h2] at hc'
      subst hc'
      exact h

theorem noEdgeWs_escapeMarkup {l : List Char} (h : noEdgeWs l = true) :
    noEdgeWs (escapeMarkup l) = true := by
  unfold noEdgeWs at h ⊢
  rcases hl : l with _ | ⟨c, cs⟩
  · rfl
  · rw [← hl]
    have hhead : ∀ c', (escapeMarkup l).head? = some c' → isWsChar c' = false := by
      intro c' hc'
      rw [hl] at hc'
      have hc : isWsChar c = false := by
        rw [hl] at h
        rcases hb : isWsChar c with _ | _
        · rfl
        · simp [hb] at h
      have : (escapeChar c ++ escapeMarkup cs).head? = (escapeChar c).head? := by
        rcases he : escapeChar c with _ | ⟨x, xs⟩
        · exact absurd he (escapeChar_ne_nil c)
        · rfl
      rw [show escapeMarkup (c :: cs) = escapeChar c ++ escapeMarkup cs from rfl,
        this] at hc'
      exact head?_escapeChar_not_ws hc c' hc'
    have hlastl : l ≠ [] := by rw [hl]; exact List.cons_ne_nil c cs
    have hlast : ∀ c', (escapeMarkup l).getLast? = some c' → isWsChar c' = false := by
      intro c' hc'
      rcases List.eq_nil_or_concat l with he | ⟨init, a, he⟩
      · exact absurd he hlastl
      · rw [List.concat_eq_append] at he
        have ha : isWsChar a = false := by
          rw [he, List.getLast?_concat] at h
          rcases hb : isWsChar a with _ | _
          · rfl
          · simp [hb] at h
        rw [he, escapeMarkup_append,
          List.getLast?_append_of_ne_nil _
            (escapeMarkup_ne_nil (List.cons_ne_nil a []))] at hc'
        have : escapeMarkup [a] = escapeChar a := by
          show escapeChar a ++ [] = escapeChar a
          exact List.append_nil _
        rw [this] at hc'
        exact getLast?_escapeChar_not_ws ha c' hc'
    rcases hh : (escapeMarkup l).head? with _ | c₁ <;>
      rcases hg : (escapeMarkup l).getLast? with _ | c₂
    · rfl
    · simp [hlast c₂ hg]
    · simp [hhead c₁ hh]
    · simp [hhead c₁ hh, hlast c₂ hg]

/-! ## Lemmas: the sanitizers are idempotent

Each sanitizer's output is characterized by a decidable predicate, and every
string satisfying it is a fixed point of the sanitizer: values written through
the validation layer survive the re-validation performed on every read and
every save unchanged. -/

/-- Characterizes the output of `sanitizeTextWith maxLen`. -/
def isSanitizedText (maxLen : Nat) (s : String) : Bool :=
  !s.toList.isEmpty && s.toList.length ≤ maxLen &&
    noEdgeWs s.toList && noMarkup s.toList

/-- Characterizes the output of `validateAndSanitizeCategory`. -/
def isSanitizedCategory (s : String) : Bool :=
  !s.toList.isEmpty && s.toList.length ≤ MAX_CATEGORY_LENGTH &&
    noEdgeWs s.toList && s.toList.all isCategoryChar

theorem toList_mk (l : List Char) : (String.mk l).toList = l := rfl

theorem mk_toList (s : String) : String.mk s.toList = s := rfl

theorem sanitizeTextWith_isSanitized {maxLen : Nat} {raw s : String}
    (h : sanitizeTextWith maxLen raw = some s) :
    isSanitizedText maxLen s = true := by
  unfold sanitizeTextWith at h
  set t := escapeMarkup (trimChars raw.toList) with ht
  rcases hte : t.isEmpty with _ | _
  · rcases hlen : decide (maxLen < t.length) with _ | _
    · rw [if_neg (by rw [hte]; exact Bool.false_ne_true),
        if_neg (of_decide_eq_false hlen)] at h
      have hs : s = String.mk t := (Option.some_inj.1 h).symm
      subst hs
      have hedge : noEdgeWs (escapeMarkup (trimChars raw.toList)) = true :=
        noEdgeWs_escapeMarkup (noEdgeWs_trimChars raw.toList)
      have hmk : noMarkup (escapeMarkup (trimChars raw.toList)) = true :=
        noMarkup_escapeMarkup (trimChars raw.toList)
      rw [← ht] at hedge hmk
      unfold isSanitizedText
      rw [toList_mk, Bool.and_eq_true, Bool.and_eq_true, Bool.and_eq_true]
      refine ⟨⟨⟨?_, ?_⟩, hedge⟩, hmk⟩
      · rw [hte]
        rfl
      · exact decide_eq_true (Nat.not_lt.1 (of_decide_eq_false hlen))
    · rw [if_neg (by rw [hte]; exact Bool.false_ne_true),
        if_pos (of_decide_eq_true hlen)] at h
      exact absurd h (Option.noConfusion)
  · rw [if_pos hte] at h
    exact absurd h (Option.noConfusion)

theorem sanitizeTextWith_fixed {maxLen : Nat} {s : String}
    (h : isSanitizedText maxLen s = true) :
    sanitizeTextWith maxLen s = some s := by
  unfold isSanitizedText at h
  rw [Bool.and_eq_true, Bool.and_eq_true, Bool.and_eq_true] at h
  obtain ⟨⟨⟨hne, hlen⟩, hedge⟩, hmk⟩ := h
  have hne' : s.toList.isEmpty = false := by
    rcases hb : s.toList.isEmpty with _ | _
    · rfl
    · rw [hb] at hne
      exact absurd hne (by decide)
  unfold sanitizeTextWith
  rw [trimChars_eq_self_of_noEdgeWs hedge, escapeMarkup_eq_self_of_noMarkup hmk]
  rw [if_neg (by rw [hne']; exact Bool.false_ne_true),
    if_neg (Nat.not_lt.2 (of_decide_eq_true hlen))]
  rw [mk_toList]

theorem sanitizeCategory_isSanitized {raw s : String}
    (h : validateAndSanitizeCategory raw = some s) :
    isSanitizedCategory s = true := by
  unfold validateAndSanitizeCategory at h
  set t := trimChars raw.toList with ht
  rcases hte : t.isEmpty with _ | _
  · rcases hlen : decide (MAX_CATEGORY_LENGTH < t.length) with _ | _
    · rcases hall : t.all isCategoryChar with _ | _
      · rw [if_neg (by rw [hte]; exact Bool.false_ne_true),
          if_neg (of_decide_eq_false hlen), if_neg (by rw [hall]; exact Bool.false_ne_true)] at h
        exact absurd h (Option.noConfusion)
      · rw [if_neg (by rw [hte]; exact Bool.false_ne_true),
          if_neg (of_decide_eq_false hlen), if_pos hall] at h
        have hs : s = String.mk t := (Option.some_inj.1 h).symm
        subst hs
        have hedge : noEdgeWs (trimChars raw.toList) = true := noEdgeWs_trimChars raw.toList
        rw [← ht] at hedge
        unfold isSanitizedCategory
        rw [toList_mk, Bool.and_eq_true, Bool.and_eq_true, Bool.and_eq_true]
        refine ⟨⟨⟨?_, ?_⟩, hedge⟩, hall⟩
        · rw [hte]
          rfl
        · exact decide_eq_true (Nat.not_lt.1 (of_decide_eq_false hlen))
    · rw [if_neg (by rw [hte]; exact Bool.false_ne_true),
        if_pos (of_decide_eq_true hlen)] at h
      exact absurd h (Option.noConfusion)
  · rw [if_pos hte] at h
    exact absurd h (Option.noConfusion)

theorem sanitizeCategory_fixed {s : String}
    (h : isSanitizedCategory s = true) :
    validateAndSanitizeCategory s = some s := by
  unfold isSanitizedCategory at h
  rw [Bool.and_eq_true, Bool.and_eq_true, Bool.and_eq_true] at h
  obtain ⟨⟨⟨hne, hlen⟩, hedge⟩, hall⟩ := h
  have hne' : s.toList.isEmpty = false := by
    rcases hb : s.toList.isEmpty with _ | _
    · rfl
    · rw [hb] at hne
      exact absurd hne (by decide)
  unfold validateAndSanitizeCategory
  rw [trimChars_eq_self_of_noEdgeWs hedge]
  rw [if_neg (by rw [hne']; exact Bool.false_ne_true),
    if_neg (Nat.not_lt.2 (of_decide_eq_true hlen)), if_pos hall]
  rw [mk_toList]

theorem isSanitizedText_ne_empty {maxLen : Nat} {s : String}
    (h : isSanitizedText maxLen s = true) : s ≠ "" := by
  intro he
  subst he
  unfold isSanitizedText at h
  rw [show ("" : String).toList = [] from rfl] at h
  simp at h

theorem isSanitizedCategory_ne_empty {s : String}
    (h : isSanitizedCategory s = true) : s ≠ "" := by
  intro he
  subst he
  exact absurd h (by decide)

theorem string_isEmpty_false_of_ne {s : String} (h : s ≠ "") :
    s.isEmpty = false := by
  rcases hb : s.isEmpty with _ | _
  · rfl
  · exact absurd ((String.isEmpty_iff s).1 hb) h

/-! ## Lemmas: identifiers and timestamps -/

theorem validateEntryId_of_format {s : String}
    (h : isGeneratedIdFormat s = true) : validateEntryId s = some s := by
  unfold validateEntryId
  rw [if_pos h]

theorem validateEntryId_inv {raw s : String}
    (h : validateEntryId raw = some s) :
    s = raw ∧ isGeneratedIdFormat raw = true := by
  unfold validateEntryId at h
  rcases hb : isGeneratedIdFormat raw with _ | _
  · rw [if_neg (by rw [hb]; exact Bool.false_ne_true)] at h
    exact absurd h (Option.noConfusion)
  · rw [if_pos hb] at h
    exact ⟨(Option.some_inj.1 h).symm, rfl⟩

theorem hexId_ne_empty {s : String} (h : isGeneratedIdFormat s = true) :
    s ≠ "" := by
  intro he
  subst he
  exact absurd h (by decide)

theorem ofDigitsRev_digitsRevAux :
    ∀ (fuel n : Nat), n ≤ fuel → ofDigitsRev (digitsRevAux fuel n) = n := by
  intro fuel
  induction fuel with
  | zero =>
    intro n hn
    have : n = 0 := Nat.le_zero.1 hn
    subst this
    rfl
  | succ f ih =>
    intro n hn
    cases n with
    | zero => rfl
    | succ m =>
      show ofDigitsRev (((m + 1) % 10) :: digitsRevAux f ((m + 1) / 10)) = m + 1
      have hdiv : (m + 1) / 10 ≤ f := by
        have h1 : (m + 1) / 10 < m + 1 := Nat.div_lt_self (Nat.succ_pos m) (by omega)
        omega
      show (m + 1) % 10 + 10 * ofDigitsRev (digitsRevAux f ((m + 1) / 10)) = m + 1
      rw [ih _ hdiv]
      exact Nat.mod_add_div (m + 1) 10

theorem digitsRevAux_lt_ten :
    ∀ (fuel n : Nat), ∀ d ∈ digitsRevAux fuel n, d < 10 := by
  intro fuel
  induction fuel with
  | zero =>
    intro n d hd
    exact absurd hd (List.not_mem_nil d)
  | succ f ih =>
    intro n d hd
    cases n with
    | zero => exact absurd hd (List.not_mem_nil d)
    | succ m =>
      rcases List.mem_cons.1 hd with h | h
      · subst h
        exact Nat.mod_lt _ (by omega)
      · exact ih _ d h

theorem charToDigit_digitToChar {d : Nat} (h : d < 10) :
    charToDigit (digitToChar d) = some d := by
  interval_cases d <;> decide

theorem validateTimestampStr_timeToIso {t : Nat} (h : t ≤ MAX_TIMESTAMP) :
    validateTimestampStr (timeToIso t) = some t := by
  unfold validateTimestampStr timeToIso parseIsoChars
  rw [toList_mk, List.getLast?_concat, List.dropLast_concat]
  have hall : ∀ d ∈ (digitsRev t).reverse, charToDigit (digitToChar d) = some d := by
    intro d hd
    exact charToDigit_digitToChar
      (digitsRevAux_lt_ten t t d (List.mem_reverse.1 hd))
  rw [mapMo_map hall]
  show (if ofDigitsRev (digitsRev t).reverse.reverse ≤ MAX_TIMESTAMP then
      some (ofDigitsRev (digitsRev t).reverse.reverse) else none) = some t
  rw [List.reverse_reverse]
  have : ofDigitsRev (digitsRev t) = t := ofDigitsRev_digitsRevAux t t (Nat.le_refl t)
  rw [this, if_pos h]

/-! ## The entry invariant

`EntryValid` characterizes the entries the validation layer lets through: it
holds of everything `getEntries` returns and of everything a successful write
persists, and such entries are fixed points of the re-validation done on
either side of the storage boundary. -/

/-- The data-model invariants of §3, as established by the validators. -/
def EntryValid (e : LogEntry) : Prop :=
  isGeneratedIdFormat e.id = true ∧
  isSanitizedText MAX_MESSAGE_LENGTH e.message = true ∧
  (∀ tag ∈ e.tags, isSanitizedText MAX_TAG_LENGTH tag = true) ∧
  (∀ c, e.category = some c → isSanitizedCategory c = true) ∧
  e.timestamp ≤ MAX_TIMESTAMP

instance (e : LogEntry) : Decidable (EntryValid e) := by
  unfold EntryValid
  infer_instance

theorem validateTimestampStr_le {s : String} {t : Nat}
    (h : validateTimestampStr s = some t) : t ≤ MAX_TIMESTAMP := by
  unfold validateTimestampStr at h
  rcases hp : parseIsoChars s.toList with _ | t'
  · rw [hp] at h
    exact absurd h (Option.noConfusion)
  · rw [hp] at h
    have h' : (if t' ≤ MAX_TIMESTAMP then some t' else none) = some t := h
    by_cases hle : t' ≤ MAX_TIMESTAMP
    · rw [if_pos hle] at h'
      rw [← Option.some_inj.1 h']
      exact hle
    · rw [if_neg hle] at h'
      exact absurd h' (Option.noConfusion)

/-! ## Lemmas: per-entry round trip through the storage boundary -/

theorem validateTags_fixed {tags : List String}
    (h : ∀ tag ∈ tags, isSanitizedText MAX_TAG_LENGTH tag = true) :
    validateTags tags = some tags := by
  unfold validateTags
  exact mapMo_fixed fun tag htag => sanitizeTextWith_fixed (h tag htag)

theorem validateAndSanitizeText_fixed {s : String}
    (h : isSanitizedText MAX_MESSAGE_LENGTH s = true) :
    validateAndSanitizeText s = some s :=
  sanitizeTextWith_fixed h

theorem sanitizeTag_fixed {s : String}
    (h : isSanitizedText MAX_TAG_LENGTH s = true) :
    sanitizeTag s = some s :=
  sanitizeTextWith_fixed h

theorem validateEntryForSave_fixed {e : LogEntry} (h : EntryValid e) :
    validateEntryForSave e = .ok e := by
  obtain ⟨hid, hmsg, htags, hcat, hts⟩ := h
  rcases hc : e.category with _ | c
  · simp only [validateEntryForSave, validateEntryId_of_format hid,
      validateAndSanitizeText_fixed hmsg, validateTags_fixed htags, hc,
      validateTimestampDate, if_pos hts]
    rw [← hc]
  · have hcs := hcat c hc
    simp only [validateEntryForSave, validateEntryId_of_format hid,
      validateAndSanitizeText_fixed hmsg, validateTags_fixed htags, hc,
      string_isEmpty_false_of_ne (isSanitizedCategory_ne_empty hcs),
      sanitizeCategory_fixed hcs, validateTimestampDate, if_pos hts,
      Bool.false_eq_true, if_false]
    rw [← hc]

theorem jGet_cons_hit {fields : List (String × Json)} {k : String} {v : Json} :
    jGet ((k, v) :: fields) k = some v := by
  simp [jGet]

theorem jGet_cons_miss {fields : List (String × Json)} {k k' : String} {v : Json}
    (h : k' ≠ k) : jGet ((k', v) :: fields) k = jGet fields k := by
  simp [jGet, h]

theorem parseStoredEntry_roundtrip {e : LogEntry} (h : EntryValid e) :
    parseStoredEntry (entryToStoredJson e) = some e := by
  obtain ⟨hid, hmsg, htags, hcat, hts⟩ := h
  have htags' : mapMo (fun x => match x with
      | Json.str s => sanitizeTag s
      | _ => none) (e.tags.map Json.str) = some e.tags :=
    mapMo_map fun tag htag => sanitizeTag_fixed (htags tag htag)
  rcases hc : e.category with _ | c
  · simp [entryToStoredJson, hc, parseStoredEntry, parseTagsField,
      parseCategoryField, parseTimestampField, jGet,
      validateEntryId_of_format hid, validateAndSanitizeText_fixed hmsg,
      htags', validateTimestampStr_timeToIso hts]
    rw [← hc]
  · have hcs := hcat c hc
    simp [entryToStoredJson, hc, parseStoredEntry, parseTagsField,
      parseCategoryField, parseTimestampField, jGet, Json.truthy,
      validateEntryId_of_format hid, validateAndSanitizeText_fixed hmsg,
      htags', validateTimestampStr_timeToIso hts,
      string_isEmpty_false_of_ne (isSanitizedCategory_ne_empty hcs),
      sanitizeCategory_fixed hcs]
    rw [← hc]

theorem parseTagsField_valid {fields : List (String × Json)} {tags : List String}
    (h : parseTagsField fields = some tags) :
    ∀ tag ∈ tags, isSanitizedText MAX_TAG_LENGTH tag = true := by
  intro tag htag
  unfold parseTagsField at h
  rcases hget : jGet fields "tags" with _ | jtags
  · rw [hget] at h
    have : tags = [] := (Option.some_inj.1 h).symm
    subst this
    exact absurd htag (List.not_mem_nil tag)
  · rw [hget] at h
    rcases jtags with _ | _ | _ | _ | elts | _
    case arr =>
      rcases mapMo_mem_some h tag htag with ⟨x, _, hx⟩
      rcases x with _ | _ | _ | sx | _ | _ <;>
        first
        | exact absurd hx (Option.noConfusion)
        | exact sanitizeTextWith_isSanitized hx
    all_goals
      have : tags = [] := (Option.some_inj.1 h).symm
      subst this
      exact absurd htag (List.not_mem_nil tag)

theorem parseCategoryField_valid {fields : List (String × Json)} {cat : Option String}
    (h : parseCategoryField fields = some cat) :
    ∀ c, cat = some c → isSanitizedCategory c = true := by
  intro c hc
  subst hc
  rcases hget : jGet fields "category" with _ | jc
  · simp [parseCategoryField, hget] at h
  · rcases htr : jc.truthy with _ | _
    · simp [parseCategoryField, hget, htr] at h
    · rcases jc with _ | _ | _ | sc | _ | _
      case str =>
        simp [parseCategoryField, hget, htr] at h
        exact sanitizeCategory_isSanitized h
      all_goals simp [parseCategoryField, hget, htr, Json.truthy] at h

theorem parseTimestampField_valid {fields : List (String × Json)} {ts : Nat}
    (h : parseTimestampField fields = some ts) : ts ≤ MAX_TIMESTAMP := by
  unfold parseTimestampField at h
  rcases hget : jGet fields "timestamp" with _ | jts
  · rw [hget] at h
    exact absurd h (Option.noConfusion)
  · rw [hget] at h
    rcases jts with _ | _ | _ | sts | _ | _ <;>
      first
      | exact absurd h (Option.noConfusion)
      | exact validateTimestampStr_le h

theorem parseStoredEntry_valid {j : Json} {e : LogEntry}
    (h : parseStoredEntry j = some e) : EntryValid e := by
  rcases j with _ | _ | _ | _ | _ | fields
  case null => exact Option.noConfusion h
  case bool => exact Option.noConfusion h
  case num => exact Option.noConfusion h
  case str => exact Option.noConfusion h
  case arr => exact Option.noConfusion h
  case obj =>
  rcases hidf : jGet fields "id" with _ | jid
  · simp [parseStoredEntry, hidf] at h
  rcases jid with _ | _ | _ | rawId | _ | _ <;>
    try (simp [parseStoredEntry, hidf] at h)
  rcases hmsgf : jGet fields "message" with _ | jmsg
  · simp [parseStoredEntry, hidf, hmsgf] at h
  rcases jmsg with _ | _ | _ | rawMsg | _ | _ <;>
    try (simp [parseStoredEntry, hidf, hmsgf] at h)
  rcases hvid : validateEntryId rawId with _ | id
  · simp [parseStoredEntry, hidf, hmsgf, hvid] at h
  rcases hvmsg : validateAndSanitizeText rawMsg with _ | msg
  · simp [parseStoredEntry, hidf, hmsgf, hvid, hvmsg] at h
  rcases htagsf : parseTagsField fields with _ | tags
  · simp [parseStoredEntry, hidf, hmsgf, hvid, hvmsg, htagsf] at h
  rcases hcatf : parseCategoryField fields with _ | cat
  · simp [parseStoredEntry, hidf, hmsgf, hvid, hvmsg, htagsf, hcatf] at h
  rcases htsf : parseTimestampField fields with _ | ts
  · simp [parseStoredEntry, hidf, hmsgf, hvid, hvmsg, htagsf, hcatf, htsf] at h
  simp only [parseStoredEntry, hidf, hmsgf, hvid, hvmsg, htagsf, hcatf, htsf] at h
  have he : e = ⟨id, msg, tags, cat, ts⟩ := (Option.some_inj.1 h).symm
  subst he
  obtain ⟨hideq, hidfmt⟩ := validateEntryId_inv hvid
  subst hideq
  exact ⟨hidfmt, sanitizeTextWith_isSanitized hvmsg, parseTagsField_valid htagsf,
    parseCategoryField_valid hcatf, parseTimestampField_valid htsf⟩

/-! ## Lemmas: the read and write pipelines -/

/-- Everything `getEntries` hands to the caller satisfies the entry
invariant: defense in depth works. -/
theorem getEntries_valid {s s' : Stored} {es : List LogEntry}
    (h : getEntries s = (es, s')) : ∀ e ∈ es, EntryValid e := by
  intro e he
  rcases s with _ | _ | _ | j
  · have : es = [] := by
      have := congrArg Prod.fst h
      exact this.symm
    subst this
    exact absurd he (List.not_mem_nil e)
  · have : es = [] := by
      have := congrArg Prod.fst h
      exact this.symm
    subst this
    exact absurd he (List.not_mem_nil e)
  · have : es = [] := by
      have := congrArg Prod.fst h
      exact this.symm
    subst this
    exact absurd he (List.not_mem_nil e)
  · rcases j with _ | _ | _ | _ | elts | _
    case arr =>
      rcases hm : mapMo parseStoredEntry elts with _ | es'
      · have : es = [] := by
          have h' : getEntries (.json (.arr elts)) = ([], .absent) := by
            simp [getEntries, hm]
          rw [h'] at h
          exact (congrArg Prod.fst h).symm
        subst this
        exact absurd he (List.not_mem_nil e)
      · have h' : getEntries (.json (.arr elts)) = (es', .json (.arr elts)) := by
          simp [getEntries, hm]
        rw [h'] at h
        have : es' = es := congrArg Prod.fst h
        subst this
        rcases mapMo_mem_some hm e he with ⟨x, _, hx⟩
        exact parseStoredEntry_valid hx
    all_goals
      have : es = [] := by
        have := congrArg Prod.fst h
        exact this.symm
      subst this
      exact absurd he (List.not_mem_nil e)

/-- Reading is idempotent: a second read returns the same entries and leaves
the stored value alone (whatever cleanup the first read did is final). -/
theorem getEntries_stable {s s' : Stored} {es : List LogEntry}
    (h : getEntries s = (es, s')) : getEntries s' = (es, s') := by
  rcases s with _ | _ | _ | j
  · have h' : (([] : List LogEntry), Stored.absent) = (es, s') := h
    injection h' with h1 h2
    subst h1
    subst h2
    rfl
  · have h' : (([] : List LogEntry), Stored.emptyStr) = (es, s') := h
    injection h' with h1 h2
    subst h1
    subst h2
    rfl
  · have h' : (([] : List LogEntry), Stored.absent) = (es, s') := h
    injection h' with h1 h2
    subst h1
    subst h2
    rfl
  · rcases j with _ | _ | _ | _ | elts | _
    case arr =>
      rcases hm : mapMo parseStoredEntry elts with _ | es'
      · have h' : (([] : List LogEntry), Stored.absent) = (es, s') := by
          rw [← h]
          simp [getEntries, hm]
        injection h' with h1 h2
        subst h1
        subst h2
        rfl
      · have h' : ((es' : List LogEntry), Stored.json (Json.arr elts)) = (es, s') := by
          rw [← h]
          simp [getEntries, hm]
        injection h' with h1 h2
        subst h1
        subst h2
        simp [getEntries, hm]
    all_goals
      have h' : (([] : List LogEntry), Stored.absent) = (es, s') := h
      injection h' with h1 h2
      subst h1
      subst h2
      rfl

/-- A collection of invariant-satisfying entries survives `saveEntries`'s
re-validation unchanged; under a healthy store the write succeeds and
persists exactly its serialization. -/
theorem setItem_ok {j : Json} (hsize : j.serSize ≤ STORAGE_SIZE_LIMIT) :
    setItem false j = .ok (.json j) := by
  simp [setItem, rawSetItem, Nat.not_lt.2 hsize]

theorem saveEntries_ok {es : List LogEntry} (s : Stored)
    (hval : ∀ e ∈ es, EntryValid e)
    (hsize : (Json.arr (es.map entryToStoredJson)).serSize ≤ STORAGE_SIZE_LIMIT) :
    saveEntries false es s = (.ok (), .json (.arr (es.map entryToStoredJson))) := by
  unfold saveEntries
  rw [mapME_fixed fun e he => validateEntryForSave_fixed (hval e he)]
  simp [setItem_ok hsize]

/-- Reading back a serialized collection of invariant-satisfying entries
returns exactly that collection, without touching the store. -/
theorem getEntries_of_saved (es : List LogEntry)
    (hval : ∀ e ∈ es, EntryValid e) :
    getEntries (.json (.arr (es.map entryToStoredJson))) =
      (es, .json (.arr (es.map entryToStoredJson))) := by
  have hm : mapMo parseStoredEntry (es.map entryToStoredJson) = some es :=
    mapMo_map fun e he => parseStoredEntry_roundtrip (hval e he)
  simp [getEntries, hm]

/-- Inversion for a successful save: the persisted value is the serialization
of the re-validated collection. -/
theorem saveEntries_ok_inv {quotaFail : Bool} {es : List LogEntry} {s s' : Stored}
    {u : Unit} (h : saveEntries quotaFail es s = (.ok u, s')) :
    ∃ ves, mapME validateEntryForSave es = .ok ves ∧
      s' = .json (.arr (ves.map entryToStoredJson)) := by
  unfold saveEntries at h
  rcases hm : mapME validateEntryForSave es with er | ves
  · rw [hm] at h
    have := congrArg Prod.fst h
    exact absurd this (by simp)
  · rw [hm] at h
    refine ⟨ves, rfl, ?_⟩
    by_cases hs : STORAGE_SIZE_LIMIT < (Json.arr (ves.map entryToStoredJson)).serSize
    · simp [setItem, rawSetItem, hs] at h
    · rcases quotaFail with _ | _
      · simp [setItem, rawSetItem, hs] at h
        exact h.symm
      · simp [setItem, rawSetItem, hs] at h

/-! ## Lemmas: statistics -/

/-- The keys of a frequency table, in property order. -/
def keysOf (counts : List (String × Nat)) : List String := counts.map Prod.fst

theorem any_fst_eq_mem (counts : List (String × Nat)) (k : String) :
    counts.any (fun p => p.1 = k) = true ↔ k ∈ keysOf counts := by
  rw [List.any_eq_true]
  constructor
  · rintro ⟨p, hp, he⟩
    exact List.mem_map.2 ⟨p, hp, of_decide_eq_true he⟩
  · intro hm
    rcases List.mem_map.1 hm with ⟨p, hp, he⟩
    exact ⟨p, hp, decide_eq_true he⟩

theorem keysOf_bumpCount (counts : List (String × Nat)) (k : String) :
    keysOf (bumpCount counts k) =
      if k ∈ keysOf counts then keysOf counts else keysOf counts ++ [k] := by
  unfold bumpCount
  rcases ha : counts.any (fun p => p.1 = k) with _ | _
  · have hnm : ¬ k ∈ keysOf counts := by
      intro hm
      rw [← any_fst_eq_mem] at hm
      rw [ha] at hm
      exact Bool.false_ne_true hm
    rw [if_neg (by decide), if_neg hnm]
    unfold keysOf
    rw [List.map_append]
    rfl
  · have hm : k ∈ keysOf counts := (any_fst_eq_mem counts k).1 ha
    rw [if_pos rfl, if_pos hm]
    unfold keysOf
    rw [List.map_map]
    apply List.map_congr_left
    intro p _
    by_cases hp : p.1 = k <;> simp [hp]

theorem keys_nodup_foldl (l : List String) :
    ∀ acc, (keysOf acc).Nodup → (keysOf (l.foldl bumpCount acc)).Nodup := by
  induction l with
  | nil =>
    intro acc h
    exact h
  | cons x xs ih =>
    intro acc h
    show (keysOf (xs.foldl bumpCount (bumpCount acc x))).Nodup
    apply ih
    rw [keysOf_bumpCount]
    by_cases hx : x ∈ keysOf acc
    · rw [if_pos hx]
      exact h
    · rw [if_neg hx]
      rw [List.nodup_append]
      refine ⟨h, List.nodup_singleton x, ?_⟩
      intro a ha hb
      rw [List.mem_singleton] at hb
      subst hb
      exact hx ha

theorem keys_toFinset_foldl (l : List String) :
    ∀ acc, (keysOf (l.foldl bumpCount acc)).toFinset =
      (keysOf acc).toFinset ∪ l.toFinset := by
  induction l with
  | nil =>
    intro acc
    simp
  | cons x xs ih =>
    intro acc
    show (keysOf (xs.foldl bumpCount (bumpCount acc x))).toFinset = _
    rw [ih, keysOf_bumpCount]
    by_cases hx : x ∈ keysOf acc
    · rw [if_pos hx]
      ext a
      simp only [Finset.mem_union, List.mem_toFinset, List.mem_cons]
      constructor
      · rintro (h | h)
        · exact Or.inl h
        · exact Or.inr (Or.inr h)
      · rintro (h | h | h)
        · exact Or.inl h
        · subst h
          exact Or.inl hx
        · exact Or.inr h
    · rw [if_neg hx]
      ext a
      simp only [Finset.mem_union, List.mem_toFinset, List.mem_cons,
        List.mem_append, List.mem_singleton, List.mem_nil_iff, or_false]
      constructor
      · rintro ((h | h) | h)
        · exact Or.inl h
        · exact Or.inr (Or.inl h)
        · exact Or.inr (Or.inr h)
      · rintro (h | h | h)
        · exact Or.inl (Or.inl h)
        · exact Or.inl (Or.inr h)
        · exact Or.inr h

theorem counts_length_card (l : List String) :
    (l.foldl bumpCount []).length = l.toFinset.card := by
  have h1 : (l.foldl bumpCount []).length = (keysOf (l.foldl bumpCount [])).length :=
    (List.length_map _ _).symm
  rw [h1, ← List.toFinset_card_of_nodup
    (keys_nodup_foldl l [] List.nodup_nil), keys_toFinset_foldl]
  simp [keysOf]

theorem tagCountsOf_eq_foldl (es : List LogEntry) :
    tagCountsOf es = (allTags es).foldl bumpCount [] := by
  suffices h : ∀ acc, es.foldl (fun a e => e.tags.foldl bumpCount a) acc =
      (allTags es).foldl bumpCount acc from h []
  induction es with
  | nil =>
    intro acc
    rfl
  | cons e es ih =>
    intro acc
    show es.foldl _ (e.tags.foldl bumpCount acc) = _
    rw [ih]
    unfold allTags
    rw [List.map_cons, List.flatten_cons, List.foldl_append]

theorem categoryCountsOf_eq_foldl (es : List LogEntry) :
    categoryCountsOf es = (allCategories es).foldl bumpCount [] := by
  suffices h : ∀ acc, es.foldl (fun a e =>
      match e.category with
      | some c => bumpCount a c
      | none => a) acc = (allCategories es).foldl bumpCount acc from h []
  induction es with
  | nil =>
    intro acc
    rfl
  | cons e es ih =>
    intro acc
    unfold allCategories
    rcases hc : e.category with _ | c
    · show es.foldl _ (match e.category with
        | some c => bumpCount acc c
        | none => acc) = _
      rw [hc, List.filterMap_cons, hc]
      exact ih acc
    · show es.foldl _ (match e.category with
        | some c => bumpCount acc c
        | none => acc) = _
      rw [hc, List.filterMap_cons, hc]
      exact ih (bumpCount acc c)

/-- Descending order on count pairs. -/
def DescBy : (String × Nat) → (String × Nat) → Prop := fun a b => b.2 ≤ a.2

theorem chain'_insertDesc {p : String × Nat} {l : List (String × Nat)}
    (h : List.Chain' DescBy l) : List.Chain' DescBy (insertDesc p l) := by
  induction l with
  | nil => exact List.chain'_singleton p
  | cons q qs ih =>
    unfold insertDesc
    by_cases hle : q.2 ≤ p.2
    · rw [if_pos hle]
      exact List.chain'_cons.2 ⟨hle, h⟩
    · rw [if_neg hle]
      have hq := List.chain'_cons'.1 h
      apply List.chain'_cons'.2
      refine ⟨?_, ih hq.2⟩
      intro y hy
      cases qs with
      | nil =>
        simp [insertDesc] at hy
        subst hy
        exact Nat.le_of_lt (Nat.lt_of_not_le hle)
      | cons r rs =>
        unfold insertDesc at hy
        by_cases hr : r.2 ≤ p.2
        · rw [if_pos hr] at hy
          simp at hy
          subst hy
          exact Nat.le_of_lt (Nat.lt_of_not_le hle)
        · rw [if_neg hr] at hy
          simp at hy
          subst hy
          exact hq.1 r rfl

theorem chain'_sortByCountDesc (l : List (String × Nat)) :
    List.Chain' DescBy (sortByCountDesc l) := by
  unfold sortByCountDesc
  induction l with
  | nil => exact List.chain'_nil
  | cons p ps ih => exact chain'_insertDesc ih

/-! ## Lemmas: operation-level helpers -/

theorem findIdxO_eq_none {p : α → Bool} :
    ∀ {l : List α}, (∀ x ∈ l, p x = false) → findIdxO p l = none := by
  intro l
  induction l with
  | nil => intro _; rfl
  | cons x xs ih =>
    intro h
    unfold findIdxO
    rw [if_neg (by rw [h x (List.mem_cons_self x xs)]; exact Bool.false_ne_true),
      ih fun y hy => h y (List.mem_cons_of_mem x hy)]
    rfl

theorem findIdxO_lt_length {p : α → Bool} :
    ∀ {l : List α} {i : Nat}, findIdxO p l = some i → i < l.length := by
  intro l
  induction l with
  | nil =>
    intro i h
    exact absurd h (Option.noConfusion)
  | cons x xs ih =>
    intro i h
    unfold findIdxO at h
    by_cases hx : p x
    · rw [if_pos hx] at h
      have : i = 0 := (Option.some_inj.1 h).symm
      subst this
      exact Nat.succ_pos _
    · rw [if_neg hx] at h
      rcases hr : findIdxO p xs with _ | j
      · rw [hr] at h
        exact absurd h (Option.noConfusion)
      · rw [hr] at h
        simp at h
        subst h
        exact Nat.succ_lt_succ (ih hr)

theorem validateTags_inv {l tags : List String}
    (h : validateTags l = some tags) :
    ∀ t ∈ tags, isSanitizedText MAX_TAG_LENGTH t = true := by
  intro t ht
  rcases mapMo_mem_some h t ht with ⟨raw, _, hraw⟩
  exact sanitizeTextWith_isSanitized hraw

theorem exceptOk_inj {ε α : Type} {a b : α}
    (h : (Except.ok a : Except ε α) = .ok b) : a = b := by
  injection h

theorem validateAddInput_inv {input : NewEntryInput} {msg : String}
    {tags : List String} {cat : Option String}
    (h : validateAddInput input = .ok (msg, tags, cat)) :
    validateAndSanitizeText input.message = some msg ∧
    validateTags input.tags = some tags ∧
    ((input.category = none ∨ input.category = some "") → cat = none) ∧
    (∀ c, input.category = some c → c ≠ "" → validateAndSanitizeCategory c = cat) := by
  unfold validateAddInput at h
  rcases hmsg : validateAndSanitizeText input.message with _ | msg'
  · rw [hmsg] at h
    exact absurd h (Except.noConfusion)
  rcases htags : validateTags input.tags with _ | tags'
  · rw [hmsg, htags] at h
    exact absurd h (Except.noConfusion)
  rw [hmsg, htags] at h
  rcases hc : input.category with _ | c
  · rw [hc] at h
    simp at h
    obtain ⟨h1, h2, h3⟩ := h
    subst h1
    subst h2
    subst h3
    exact ⟨rfl, rfl, fun _ => rfl, fun c hc' => absurd hc' (Option.noConfusion)⟩
  · rw [hc] at h
    by_cases hce : c = ""
    · subst hce
      simp only [show ("" : String).isEmpty = true from rfl] at h
      simp at h
      obtain ⟨h1, h2, h3⟩ := h
      subst h1
      subst h2
      subst h3
      refine ⟨rfl, rfl, fun _ => rfl, ?_⟩
      intro c' hc' hne
      have : c' = "" := (Option.some_inj.1 hc'.symm)
      exact absurd this hne
    · rcases hvc : validateAndSanitizeCategory c with _ | c'
      · simp [string_isEmpty_false_of_ne hce, hvc] at h
      · simp [string_isEmpty_false_of_ne hce, hvc] at h
        obtain ⟨h1, h2, h3⟩ := h
        subst h1
        subst h2
        refine ⟨rfl, rfl, ?_, ?_⟩
        · rintro (he | he)
          · exact absurd he (Option.noConfusion)
          · have : c = "" := Option.some_inj.1 he
            exact absurd this hce
        · intro c'' hc'' _
          have : c = c'' := Option.some_inj.1 hc''
          subst this
          rw [hvc, ← h3]

theorem newEntry_valid {freshId : String} {now : Nat} {input : NewEntryInput}
    {msg : String} {tags : List String} {cat : Option String}
    (hval : validateAddInput input = .ok (msg, tags, cat))
    (hid : isGeneratedIdFormat freshId = true) (hnow : now ≤ MAX_TIMESTAMP) :
    EntryValid ⟨freshId, msg, tags, cat, now⟩ := by
  obtain ⟨hmsg, htags, hnone, hcat⟩ := validateAddInput_inv hval
  refine ⟨hid, sanitizeTextWith_isSanitized hmsg, validateTags_inv htags, ?_, hnow⟩
  intro c hc
  have hc' : cat = some c := hc
  rcases hic : input.category with _ | rawc
  · rw [hnone (Or.inl hic)] at hc'
    exact absurd hc' (Option.noConfusion)
  · by_cases hce : rawc = ""
    · subst hce
      rw [hnone (Or.inr hic)] at hc'
      exact absurd hc' (Option.noConfusion)
    · have hv := hcat rawc hic hce
      rw [hc'] at hv
      rcases hvc : validateAndSanitizeCategory rawc with _ | c₀
      · rw [hvc] at hv
        exact absurd hv (Option.noConfusion)
      · rw [hvc] at hv
        have hcc : c₀ = c := Option.some_inj.1 hv
        subst hcc
        exact sanitizeCategory_isSanitized hvc

theorem validateUpdates_inv {u : EntryUpdates} {vmsg : Option String}
    {vtags : Option (List String)} {vcat : Option (Option String)}
    (h : validateUpdates u = .ok (vmsg, vtags, vcat)) :
    (u.message = none → vmsg = none) ∧
    (u.tags = none → vtags = none) ∧
    (u.category = none → vcat = none) ∧
    (∀ m, vmsg = some m → isSanitizedText MAX_MESSAGE_LENGTH m = true) ∧
    (∀ ts, vtags = some ts → ∀ t ∈ ts, isSanitizedText MAX_TAG_LENGTH t = true) ∧
    (∀ c, vcat = some (some c) → isSanitizedCategory c = true) := by
  unfold validateUpdates at h
  rcases hm : ((match u.message with
      | none => .ok none
      | some m =>
        match validateAndSanitizeText m with
        | some m' => .ok (some m')
        | none => .error (.validationError "message")) :
        Except Err (Option String)) with er | vmsg'
  · rw [hm] at h
    exact absurd h (Except.noConfusion)
  rcases ht : ((match u.tags with
      | none => .ok none
      | some ts =>
        match validateTags ts with
        | some ts' => .ok (some ts')
        | none => .error (.validationError "tags")) :
        Except Err (Option (List String))) with er | vtags'
  · rw [hm, ht] at h
    exact absurd h (Except.noConfusion)
  rcases hcx : ((match u.category with
      | none => .ok none
      | some c =>
        if c.isEmpty then .ok (some none) else
        match validateAndSanitizeCategory c with
        | some c' => .ok (some (some c'))
        | none => .error (.validationError "category")) :
        Except Err (Option (Option String))) with er | vcat'
  · rw [hm, ht, hcx] at h
    exact absurd h (Except.noConfusion)
  rw [hm, ht, hcx] at h
  simp at h
  obtain ⟨h1, h2, h3⟩ := h
  subst h1
  subst h2
  subst h3
  refine ⟨?_, ?_, ?_, ?_, ?_, ?_⟩
  · intro hu
    rw [hu] at hm
    have hm' : (Except.ok none : Except Err (Option String)) = .ok vmsg' := hm
    exact (exceptOk_inj hm').symm
  · intro hu
    rw [hu] at ht
    have ht' : (Except.ok none : Except Err (Option (List String))) = .ok vtags' := ht
    exact (exceptOk_inj ht').symm
  · intro hu
    rw [hu] at hcx
    have hcx' : (Except.ok none : Except Err (Option (Option String))) = .ok vcat' := hcx
    exact (exceptOk_inj hcx').symm
  · intro m hvm
    rcases hum : u.message with _ | rawm
    · rw [hum] at hm
      have hm' : (Except.ok none : Except Err (Option String)) = .ok vmsg' := hm
      rw [← exceptOk_inj hm'] at hvm
      exact absurd hvm (Option.noConfusion)
    · rw [hum] at hm
      rcases hs : validateAndSanitizeText rawm with _ | m'
      · simp only [hs] at hm
        exact absurd hm (Except.noConfusion)
      · simp only [hs] at hm
        have hm' : (Except.ok (some m') : Except Err (Option String)) = .ok vmsg' := hm
        rw [← exceptOk_inj hm'] at hvm
        have hmm : m' = m := Option.some_inj.1 hvm
        subst hmm
        exact sanitizeTextWith_isSanitized hs
  · intro ts hvt t htmem
    rcases hut : u.tags with _ | rawts
    · rw [hut] at ht
      have ht' : (Except.ok none : Except Err (Option (List String))) = .ok vtags' := ht
      rw [← exceptOk_inj ht'] at hvt
      exact absurd hvt (Option.noConfusion)
    · rw [hut] at ht
      rcases hs : validateTags rawts with _ | ts'
      · simp only [hs] at ht
        exact absurd ht (Except.noConfusion)
      · simp only [hs] at ht
        have ht' : (Except.ok (some ts') : Except Err (Option (List String))) = .ok vtags' := ht
        rw [← exceptOk_inj ht'] at hvt
        have htt : ts' = ts := Option.some_inj.1 hvt
        subst htt
        exact validateTags_inv hs t htmem
  · intro c hvc
    rcases huc : u.category with _ | rawc
    · rw [huc] at hcx
      have hcx' : (Except.ok none : Except Err (Option (Option String))) = .ok vcat' := hcx
      rw [← exceptOk_inj hcx'] at hvc
      exact absurd hvc (Option.noConfusion)
    · rw [huc] at hcx
      rcases hce : rawc.isEmpty with _ | _
      · rcases hs : validateAndSanitizeCategory rawc with _ | c'
        · simp only [hce, hs] at hcx
          simp at hcx
        · simp only [hce, hs] at hcx
          simp at hcx
          have hcx' : some (some c') = vcat' := hcx
          rw [← hcx'] at hvc
          have : some c' = some c := Option.some_inj.1 hvc
          have hcc : c' = c := Option.some_inj.1 this
          subst hcc
          exact sanitizeCategory_isSanitized hs
      · simp only [hce] at hcx
        simp at hcx
        rw [← hcx] at hvc
        have := Option.some_inj.1 hvc
        exact absurd this (Option.noConfusion)
theorem mergeEntry_valid {old : LogEntry} {vmsg : Option String}
    {vtags : Option (List String)} {vcat : Option (Option String)}
    (hold : EntryValid old)
    (hmsg : ∀ m, vmsg = some m → isSanitizedText MAX_MESSAGE_LENGTH m = true)
    (htags : ∀ ts, vtags = some ts → ∀ t ∈ ts, isSanitizedText MAX_TAG_LENGTH t = true)
    (hcat : ∀ c, vcat = some (some c) → isSanitizedCategory c = true) :
    EntryValid (mergeEntry old vmsg vtags vcat) := by
  obtain ⟨hid, hm, ht, hc, hts⟩ := hold
  refine ⟨hid, ?_, ?_, ?_, hts⟩
  · rcases hv : vmsg with _ | m
    · simpa [mergeEntry, hv] using hm
    · simpa [mergeEntry, hv] using hmsg m hv
  · rcases hv : vtags with _ | ts
    · simpa [mergeEntry, hv] using ht
    · intro t htm
      refine htags ts hv t ?_
      simpa [mergeEntry, hv] using htm
  · rcases hv : vcat with _ | c
    · intro c' hc'
      refine hc c' ?_
      simpa [mergeEntry, hv] using hc'
    · intro c' hc'
      apply hcat c'
      rw [hv]
      have : (mergeEntry old vmsg vtags (some c)).category = c := by
        simp [mergeEntry]
      rw [this] at hc'
      rw [hc']

theorem setItem_quota {j : Json} (hsize : j.serSize ≤ STORAGE_SIZE_LIMIT) :
    setItem true j =
      .error (.quotaExceededError
        "Storage quota exceeded. Please clear some entries.") := by
  simp [setItem, rawSetItem, Nat.not_lt.2 hsize]

theorem saveEntries_quota {es : List LogEntry} (s : Stored)
    (hval : ∀ e ∈ es, EntryValid e)
    (hsize : (Json.arr (es.map entryToStoredJson)).serSize ≤ STORAGE_SIZE_LIMIT) :
    saveEntries true es s =
      (.error (.quotaExceededError
        "Storage quota exceeded. Please clear some entries."), s) := by
  unfold saveEntries
  rw [mapME_fixed fun e he => validateEntryForSave_fixed (hval e he)]
  simp [setItem_quota hsize]

/-! ## The claims -/

/-- C1 counterexample: the stored empty string is not parseable JSON
(`JSON.parse("")` throws), yet `getEntries` returns the empty collection
without deleting the stored value — the `if (!stored) return []` guard fires
on the falsy empty string before the parse is attempted, so the claimed
unconditional deletion of unparseable values is false. -/
theorem c1_empty_string_not_deleted :
    getEntries Stored.emptyStr = ([], Stored.emptyStr) ∧
      Stored.emptyStr ≠ Stored.absent :=
  ⟨rfl, fun h => Stored.noConfusion h⟩

/-- C1 (amended): if the stored value is absent — or is the empty string,
which the falsy-guard treats like absent without deleting it — `getEntries`
returns the empty sequence and leaves the store as it is; any other stored
value that is not parseable JSON, not a JSON array, or has an element that is
not an object with string `id` and `message` (or fails re-validation) is
deleted outright and the empty sequence is returned; no error ever surfaces
(the operation is total by construction). -/
theorem c1_read_fails_closed :
    getEntries Stored.absent = ([], Stored.absent) ∧
    getEntries Stored.emptyStr = ([], Stored.emptyStr) ∧
    getEntries Stored.notJson = ([], Stored.absent) ∧
    (∀ j : Json, (∀ elts, j ≠ Json.arr elts) →
      getEntries (Stored.json j) = ([], Stored.absent)) ∧
    (∀ elts x, x ∈ elts → parseStoredEntry x = none →
      getEntries (Stored.json (Json.arr elts)) = ([], Stored.absent)) := by
  refine ⟨rfl, rfl, rfl, ?_, ?_⟩
  · intro j hj
    rcases j with _ | _ | _ | _ | elts | _
    case arr => exact absurd rfl (hj elts)
    all_goals rfl
  · intro elts x hx hpx
    simp [getEntries, mapMo_eq_none_of_mem hx hpx]

/-- C1 witness: a non-array JSON value and an array holding a non-object
element are both cleared, each read returning the empty collection. -/
theorem c1_read_fails_closed_witness :
    getEntries (Stored.json (Json.str "oops")) = ([], Stored.absent) ∧
    getEntries (Stored.json (Json.arr [Json.num 7])) = ([], Stored.absent) :=
  ⟨c1_read_fails_closed.2.2.2.1 (Json.str "oops")
      (fun _ h => Json.noConfusion h),
    c1_read_fails_closed.2.2.2.2 [Json.num 7] (Json.num 7)
      (List.mem_singleton.2 rfl) rfl⟩

/-- C2: with a valid stored collection of exactly 10 000 entries and valid
input fields, `addEntry` fails with `CapacityExceededError` and leaves the
stored value (hence the collection size) unchanged; below the cap — given a
well-formed generated id, a sane clock and a healthy store — it succeeds,
returning the new entry and persisting the appended collection. -/
theorem c2_capacity_cap (quotaFail : Bool) (freshId : String) (now : Nat)
    (input : NewEntryInput) (s : Stored) (es : List LogEntry)
    (msg : String) (tags : List String) (cat : Option String)
    (hread : getEntries s = (es, s))
    (hval : validateAddInput input = .ok (msg, tags, cat)) :
    (es.length = 10000 →
      addEntry quotaFail freshId now input s =
        (.error .capacityExceededError, s) ∧
      (getEntries s).1.length = 10000) ∧
    (es.length < 10000 → isGeneratedIdFormat freshId = true →
      now ≤ MAX_TIMESTAMP →
      (Json.arr ((es ++ [(⟨freshId, msg, tags, cat, now⟩ : LogEntry)]).map
          entryToStoredJson)).serSize ≤ STORAGE_SIZE_LIMIT →
      addEntry false freshId now input s =
        (.ok ⟨freshId, msg, tags, cat, now⟩,
          .json (.arr ((es ++ [(⟨freshId, msg, tags, cat, now⟩ : LogEntry)]).map
            entryToStoredJson)))) := by
  constructor
  · intro hfull
    constructor
    · simp [addEntry, hval, hread, hfull]
    · rw [hread, hfull]
  · intro hlt hid hnow hsize
    have hvalall : ∀ e ∈ es ++ [(⟨freshId, msg, tags, cat, now⟩ : LogEntry)],
        EntryValid e := by
      intro e he
      rcases List.mem_append.1 he with h | h
      · exact getEntries_valid hread e h
      · rw [List.mem_singleton.1 h]
        exact newEntry_valid hval hid hnow
    have hsave := saveEntries_ok s hvalall hsize
    simp [addEntry, hval, hread, Nat.not_le.2 hlt, hsave]

/-- A concrete, invariant-satisfying entry used by the witnesses. -/
def witnessEntry : LogEntry :=
  ⟨"00000000000000000000000000000000", "Test message", ["test"], some "work", 1234⟩

/-- A stored value holding exactly 10 000 serialized entries. -/
def witnessFull : Stored :=
  .json (.arr ((List.replicate 10000 witnessEntry).map entryToStoredJson))

/-- A UUID-shaped id as `crypto.randomUUID` would produce. -/
def witnessUuid : String := "123e4567-e89b-12d3-a456-426614174000"

/-- C2 witness: at the cap the 10 001st add fails and the store is untouched;
from an empty store the same add succeeds. -/
theorem c2_capacity_cap_witness :
    addEntry false witnessUuid 1 ⟨"Hello", [], none⟩ witnessFull =
      (.error .capacityExceededError, witnessFull) ∧
    addEntry false witnessUuid 1 ⟨"Hello", [], none⟩ .absent =
      (.ok ⟨witnessUuid, "Hello", [], none, 1⟩,
        .json (.arr ([(⟨witnessUuid, "Hello", [], none, 1⟩ : LogEntry)].map
          entryToStoredJson))) := by
  have hv : ∀ e ∈ List.replicate 10000 witnessEntry, EntryValid e := by
    intro e he
    rw [List.eq_of_mem_replicate he]
    decide
  have hval : validateAddInput ⟨"Hello", [], none⟩ = .ok ("Hello", [], none) := rfl
  constructor
  · exact ((c2_capacity_cap false witnessUuid 1 ⟨"Hello", [], none⟩ witnessFull
      (List.replicate 10000 witnessEntry) "Hello" [] none
      (getEntries_of_saved _ hv) hval).1 (by rw [List.length_replicate])).1
  · have h2 := (c2_capacity_cap false witnessUuid 1 ⟨"Hello", [], none⟩
      Stored.absent [] "Hello" [] none rfl hval).2
      (by decide) (by decide) (by decide)
      (by simp [entryToStoredJson, witnessUuid, timeToIso, Json.serSize,
        Json.serSize.serSizeList, Json.serSize.serSizeFields,
        STORAGE_SIZE_LIMIT]
          <;> decide)
    simpa using h2

/-- C3: for every valid input field set, a successful `addEntry` returns an
entry whose message, tags and category are exactly the sanitized inputs and
whose id and timestamp are the system-generated values; reading afterwards
yields the previous collection extended with that very entry, and the read
leaves the store unchanged, so the values are stable across subsequent
reads. -/
theorem c3_add_roundtrip (freshId : String) (now : Nat) (input : NewEntryInput)
    (s : Stored) (es : List LogEntry)
    (msg : String) (tags : List String) (cat : Option String)
    (hread : getEntries s = (es, s))
    (hval : validateAddInput input = .ok (msg, tags, cat))
    (hlt : es.length < 10000)
    (hid : isGeneratedIdFormat freshId = true) (hnow : now ≤ MAX_TIMESTAMP)
    (hsize : (Json.arr ((es ++ [(⟨freshId, msg, tags, cat, now⟩ : LogEntry)]).map
        entryToStoredJson)).serSize ≤ STORAGE_SIZE_LIMIT) :
    validateAndSanitizeText input.message = some msg ∧
    validateTags input.tags = some tags ∧
    ((input.category = none ∨ input.category = some "") → cat = none) ∧
    (∀ c, input.category = some c → c ≠ "" → validateAndSanitizeCategory c = cat) ∧
    ∃ s', addEntry false freshId now input s =
        (.ok ⟨freshId, msg, tags, cat, now⟩, s') ∧
      getEntries s' = (es ++ [(⟨freshId, msg, tags, cat, now⟩ : LogEntry)], s') := by
  obtain ⟨hmsg, htags, hcnone, hcsome⟩ := validateAddInput_inv hval
  refine ⟨hmsg, htags, hcnone, hcsome, ?_⟩
  have hvalall : ∀ e ∈ es ++ [(⟨freshId, msg, tags, cat, now⟩ : LogEntry)],
      EntryValid e := by
    intro e he
    rcases List.mem_append.1 he with h | h
    · exact getEntries_valid hread e h
    · rw [List.mem_singleton.1 h]
      exact newEntry_valid hval hid hnow
  refine ⟨.json (.arr ((es ++ [(⟨freshId, msg, tags, cat, now⟩ : LogEntry)]).map
      entryToStoredJson)), ?_, getEntries_of_saved _ hvalall⟩
  have hsave := saveEntries_ok s hvalall hsize
  simp [addEntry, hval, hread, Nat.not_le.2 hlt, hsave]

/-- C3 witness: adding a concrete entry to an empty store and reading it
back. -/
theorem c3_add_roundtrip_witness :
    ∃ s', addEntry false witnessUuid 5 ⟨"Hello", ["react"], some "work"⟩
        Stored.absent =
      (.ok ⟨witnessUuid, "Hello", ["react"], some "work", 5⟩, s') ∧
    getEntries s' =
      ([(⟨witnessUuid, "Hello", ["react"], some "work", 5⟩ : LogEntry)], s') := by
  have h := c3_add_roundtrip witnessUuid 5 ⟨"Hello", ["react"], some "work"⟩
    Stored.absent [] "Hello" ["react"] (some "work") rfl rfl (by decide)
    (by decide) (by decide)
    (by simp [entryToStoredJson, witnessUuid, timeToIso, Json.serSize,
      Json.serSize.serSizeList, Json.serSize.serSizeFields, STORAGE_SIZE_LIMIT]
        <;> decide)
  obtain ⟨s', h1, h2⟩ := h.2.2.2.2
  exact ⟨s', h1, by simpa using h2⟩

/-- C4: updating through a syntactically valid id that matches no entry of
the stored collection fails with `NotFoundError` and leaves the stored value
(hence the collection) unchanged. -/
theorem c4_update_notfound (quotaFail : Bool) (id : String) (u : EntryUpdates)
    (s : Stored) (es : List LogEntry)
    (hid : isGeneratedIdFormat id = true)
    (hread : getEntries s = (es, s))
    (habs : ∀ e ∈ es, e.id ≠ id) :
    updateEntry quotaFail id u s = (.error .notFoundError, s) := by
  have hfind : findIdxO (fun e => e.id = id) es = none :=
    findIdxO_eq_none fun e he => decide_eq_false (habs e he)
  simp [updateEntry, validateEntryId_of_format hid, hread, hfind]

/-- C4 witness: an absent UUID on a store holding one other entry. -/
theorem c4_update_notfound_witness :
    updateEntry false witnessUuid {} (.json (.arr [entryToStoredJson witnessEntry])) =
      (.error .notFoundError, .json (.arr [entryToStoredJson witnessEntry])) := by
  have hread : getEntries (.json (.arr [entryToStoredJson witnessEntry])) =
      ([witnessEntry], .json (.arr [entryToStoredJson witnessEntry])) := by
    have := getEntries_of_saved [witnessEntry]
      (by intro e he; rw [List.mem_singleton.1 he]; decide)
    simpa using this
  exact c4_update_notfound false witnessUuid {} _ [witnessEntry] (by decide)
    hread (by intro e he; rw [List.mem_singleton.1 he]; decide)

/-- C5: a successful partial update replaces exactly the entry at the found
index by the merge of its old value with the validated present fields: `id`
and `timestamp` are never changed (whatever `u.id`/`u.timestamp` contain,
they are never read), absent fields keep their previous values, and every
other entry of the collection is untouched. -/
theorem c5_update_frame (id : String) (u : EntryUpdates) (s : Stored)
    (es : List LogEntry) (i : Nat) (vmsg : Option String)
    (vtags : Option (List String)) (vcat : Option (Option String))
    (old merged : LogEntry)
    (hid : isGeneratedIdFormat id = true)
    (hread : getEntries s = (es, s))
    (hfind : findIdxO (fun e => e.id = id) es = some i)
    (hu : validateUpdates u = .ok (vmsg, vtags, vcat))
    (hold : old = es.getD i default)
    (hmerged : merged = mergeEntry old vmsg vtags vcat)
    (hsize : (Json.arr ((es.set i merged).map entryToStoredJson)).serSize
        ≤ STORAGE_SIZE_LIMIT) :
    updateEntry false id u s =
      (.ok (), .json (.arr ((es.set i merged).map entryToStoredJson))) ∧
    getEntries (.json (.arr ((es.set i merged).map entryToStoredJson))) =
      (es.set i merged, .json (.arr ((es.set i merged).map entryToStoredJson))) ∧
    merged.id = old.id ∧
    merged.timestamp = old.timestamp ∧
    (u.message = none → merged.message = old.message) ∧
    (u.tags = none → merged.tags = old.tags) ∧
    (u.category = none → merged.category = old.category) ∧
    (∀ j, j ≠ i → (es.set i merged).getD j default = es.getD j default) := by
  obtain ⟨humsg, hutags, hucat, hvm, hvt, hvc⟩ := validateUpdates_inv hu
  have hilt : i < es.length := findIdxO_lt_length hfind
  have holdmem : old ∈ es := by
    rw [hold, List.getD_eq_getElem es default hilt]
    exact List.getElem_mem hilt
  have holdvalid : EntryValid old := getEntries_valid hread old holdmem
  have hmergedvalid : EntryValid merged := by
    rw [hmerged]
    exact mergeEntry_valid holdvalid hvm hvt hvc
  have hvalset : ∀ e ∈ es.set i merged, EntryValid e := by
    intro e he
    rcases List.mem_or_eq_of_mem_set he with h | h
    · exact getEntries_valid hread e h
    · rw [h]
      exact hmergedvalid
  refine ⟨?_, getEntries_of_saved _ hvalset, ?_, ?_, ?_, ?_, ?_, ?_⟩
  · have hsave := saveEntries_ok s hvalset hsize
    simp only [updateEntry, validateEntryId_of_format hid, hread, hfind, hu]
    rw [← hold, ← hmerged]
    exact hsave
  · rw [hmerged]
    rfl
  · rw [hmerged]
    rfl
  · intro hn
    rw [hmerged, humsg hn]
    rfl
  · intro hn
    rw [hmerged, hutags hn]
    rfl
  · intro hn
    rw [hmerged, hucat hn]
    rfl
  · intro j hj
    rw [List.getD_eq_getElem?_getD, List.getD_eq_getElem?_getD,
      List.getElem?_set_ne (fun h => hj h.symm)]

/-- C5 witness: updating the message of the only entry keeps id, timestamp,
tags and category. -/
theorem c5_update_frame_witness :
    updateEntry false witnessEntry.id { message := some "Changed" }
        (.json (.arr [entryToStoredJson witnessEntry])) =
      (.ok (), .json (.arr [entryToStoredJson
        ⟨witnessEntry.id, "Changed", ["test"], some "work", 1234⟩])) ∧
    (⟨witnessEntry.id, "Changed", ["test"], some "work", 1234⟩ : LogEntry).id =
      witnessEntry.id ∧
    (⟨witnessEntry.id, "Changed", ["test"], some "work", 1234⟩ : LogEntry).timestamp =
      witnessEntry.timestamp := by
  have hread : getEntries (.json (.arr [entryToStoredJson witnessEntry])) =
      ([witnessEntry], .json (.arr [entryToStoredJson witnessEntry])) := by
    have := getEntries_of_saved [witnessEntry]
      (by intro e he; rw [List.mem_singleton.1 he]; decide)
    simpa using this
  have h := c5_update_frame witnessEntry.id { message := some "Changed" }
    (.json (.arr [entryToStoredJson witnessEntry])) [witnessEntry] 0
    (some "Changed") none none witnessEntry
    ⟨witnessEntry.id, "Changed", ["test"], some "work", 1234⟩
    (by decide) hread rfl rfl rfl rfl
    (by simp [entryToStoredJson, witnessEntry, timeToIso, Json.serSize,
      Json.serSize.serSizeList, Json.serSize.serSizeFields, STORAGE_SIZE_LIMIT]
        <;> decide)
  exact ⟨by simpa using h.1, h.2.2.1, h.2.2.2.1⟩

/-- C6: `deleteEntry` with a syntactically valid id persists exactly the
entries whose id differs, in their original relative order (the filter), and
reading the result returns that filtered collection; when no entry matches,
the filter is the identity, so the call succeeds as a no-op on the
collection. -/
theorem c6_delete_filter (id : String) (s : Stored) (es : List LogEntry)
    (hid : isGeneratedIdFormat id = true)
    (hread : getEntries s = (es, s))
    (hsize : (Json.arr ((es.filter fun e => e.id ≠ id).map
        entryToStoredJson)).serSize ≤ STORAGE_SIZE_LIMIT) :
    deleteEntry false id s =
      (.ok (), .json (.arr ((es.filter fun e => e.id ≠ id).map
        entryToStoredJson))) ∧
    getEntries (.json (.arr ((es.filter fun e => e.id ≠ id).map
        entryToStoredJson))) =
      (es.filter fun e => e.id ≠ id,
       .json (.arr ((es.filter fun e => e.id ≠ id).map entryToStoredJson))) ∧
    ((∀ e ∈ es, e.id ≠ id) → es.filter (fun e => e.id ≠ id) = es) := by
  have hvalf : ∀ e ∈ es.filter (fun e => e.id ≠ id), EntryValid e := by
    intro e he
    exact getEntries_valid hread e (List.mem_of_mem_filter he)
  refine ⟨?_, getEntries_of_saved _ hvalf, ?_⟩
  · have hsave := saveEntries_ok s hvalf hsize
    simp only [deleteEntry, validateEntryId_of_format hid, hread]
    exact hsave
  · intro h
    exact List.filter_eq_self.2 fun e he => decide_eq_true (h e he)

/-- C6 witness: deleting the only entry empties the collection; deleting an
absent id is a successful no-op on the collection. -/
theorem c6_delete_filter_witness :
    deleteEntry false witnessEntry.id (.json (.arr [entryToStoredJson witnessEntry])) =
      (.ok (), .json (.arr [])) ∧
    deleteEntry false witnessUuid (.json (.arr [entryToStoredJson witnessEntry])) =
      (.ok (), .json (.arr [entryToStoredJson witnessEntry])) := by
  have hread : getEntries (.json (.arr [entryToStoredJson witnessEntry])) =
      ([witnessEntry], .json (.arr [entryToStoredJson witnessEntry])) := by
    have := getEntries_of_saved [witnessEntry]
      (by intro e he; rw [List.mem_singleton.1 he]; decide)
    simpa using this
  constructor
  · have h := (c6_delete_filter witnessEntry.id _ [witnessEntry] (by decide)
      hread (by decide)).1
    simpa using h
  · have h := (c6_delete_filter witnessUuid _ [witnessEntry] (by decide)
      hread (by simp [entryToStoredJson, witnessEntry, timeToIso, Json.serSize,
        Json.serSize.serSizeList, Json.serSize.serSizeFields, STORAGE_SIZE_LIMIT]
          <;> decide)).1
    simpa using h

/-- The three entries of the spec's statistics example. -/
def exampleEntries : List LogEntry :=
  [⟨"00000000000000000000000000000001", "Entry 1", ["react"], some "work", 1⟩,
   ⟨"00000000000000000000000000000002", "Entry 2", ["react", "typescript"],
     some "work", 2⟩,
   ⟨"00000000000000000000000000000003", "Entry 3", ["vue"], some "personal", 3⟩]

/-- The stored value holding the example collection. -/
def exampleStored : Stored := .json (.arr (exampleEntries.map entryToStoredJson))

/-- C7: on every well-formed collection, `getStatistics` reports the entry
count, the numbers of distinct tags and distinct categories, and at most ten
(value, count) pairs in descending count order for tags and for categories;
on the spec's three-entry example it returns totals 3/3/2 with ("react", 2)
first. -/
theorem c7_statistics (s : Stored) (es : List LogEntry)
    (hread : getEntries s = (es, s)) :
    ((getStatistics s).1.totalEntries = es.length ∧
     (getStatistics s).1.totalTags = (allTags es).toFinset.card ∧
     (getStatistics s).1.totalCategories = (allCategories es).toFinset.card ∧
     (getStatistics s).1.mostUsedTags.length ≤ 10 ∧
     List.Chain' DescBy (getStatistics s).1.mostUsedTags ∧
     (getStatistics s).1.mostUsedCategories.length ≤ 10 ∧
     List.Chain' DescBy (getStatistics s).1.mostUsedCategories) ∧
    (getStatistics exampleStored).1 =
      ⟨3, 3, 2, [("react", 2), ("typescript", 1), ("vue", 1)],
        [("work", 2), ("personal", 1)]⟩ := by
  constructor
  · have hstat : getStatistics s =
        ({ totalEntries := es.length
           totalTags := (tagCountsOf es).length
           totalCategories := (categoryCountsOf es).length
           mostUsedTags := (sortByCountDesc (tagCountsOf es)).take 10
           mostUsedCategories :=
             (sortByCountDesc (categoryCountsOf es)).take 10 }, s) := by
      simp [getStatistics, hread]
    rw [hstat]
    refine ⟨rfl, ?_, ?_, ?_, ?_, ?_, ?_⟩
    · rw [tagCountsOf_eq_foldl, counts_length_card]
    · rw [categoryCountsOf_eq_foldl, counts_length_card]
    · rw [List.length_take]
      exact min_le_left _ _
    · exact (chain'_sortByCountDesc _).take 10
    · rw [List.length_take]
      exact min_le_left _ _
    · exact (chain'_sortByCountDesc _).take 10
  · rfl

/-- C7 witness: the universal part applied to the example collection. -/
theorem c7_statistics_witness :
    (getStatistics exampleStored).1.totalEntries = exampleEntries.length ∧
    (getStatistics exampleStored).1.totalTags =
      (allTags exampleEntries).toFinset.card ∧
    (getStatistics exampleStored).1.totalCategories =
      (allCategories exampleEntries).toFinset.card := by
  have hv : ∀ e ∈ exampleEntries, EntryValid e := by
    intro e he
    fin_cases he <;> decide
  have h := (c7_statistics exampleStored exampleEntries
    (getEntries_of_saved _ hv)).1
  exact ⟨h.1, h.2.1, h.2.2.1⟩

/-- C8: when the platform-level write throws its quota `DOMException`, every
mutation surfaces the descriptive quota-exceeded error — never the raw
platform exception — and leaves the stored value untouched. -/
theorem c8_quota_translated (s : Stored) (es : List LogEntry)
    (hread : getEntries s = (es, s)) :
    ((Json.arr (es.map entryToStoredJson)).serSize ≤ STORAGE_SIZE_LIMIT →
      saveEntries true es s =
        (.error (.quotaExceededError
          "Storage quota exceeded. Please clear some entries."), s)) ∧
    (∀ freshId now input msg tags cat,
      validateAddInput input = .ok (msg, tags, cat) →
      es.length < 10000 → isGeneratedIdFormat freshId = true →
      now ≤ MAX_TIMESTAMP →
      (Json.arr ((es ++ [(⟨freshId, msg, tags, cat, now⟩ : LogEntry)]).map
        entryToStoredJson)).serSize ≤ STORAGE_SIZE_LIMIT →
      addEntry true freshId now input s =
        (.error (.quotaExceededError
          "Storage quota exceeded. Please clear some entries."), s)) ∧
    (∀ id, isGeneratedIdFormat id = true →
      (Json.arr ((es.filter fun e => e.id ≠ id).map
        entryToStoredJson)).serSize ≤ STORAGE_SIZE_LIMIT →
      deleteEntry true id s =
        (.error (.quotaExceededError
          "Storage quota exceeded. Please clear some entries."), s)) ∧
    (∀ id u i vmsg vtags vcat, isGeneratedIdFormat id = true →
      findIdxO (fun e => e.id = id) es = some i →
      validateUpdates u = .ok (vmsg, vtags, vcat) →
      (Json.arr ((es.set i (mergeEntry (es.getD i default) vmsg vtags
        vcat)).map entryToStoredJson)).serSize ≤ STORAGE_SIZE_LIMIT →
      updateEntry true id u s =
        (.error (.quotaExceededError
          "Storage quota exceeded. Please clear some entries."), s)) := by
  have hvs : ∀ e ∈ es, EntryValid e := getEntries_valid hread
  refine ⟨fun hsize => saveEntries_quota s hvs hsize, ?_, ?_, ?_⟩
  · intro freshId now input msg tags cat hval hlt hid hnow hsize
    have hvalall : ∀ e ∈ es ++ [(⟨freshId, msg, tags, cat, now⟩ : LogEntry)],
        EntryValid e := by
      intro e he
      rcases List.mem_append.1 he with h | h
      · exact hvs e h
      · rw [List.mem_singleton.1 h]
        exact newEntry_valid hval hid hnow
    have hsave := saveEntries_quota s hvalall hsize
    simp [addEntry, hval, hread, Nat.not_le.2 hlt, hsave]
  · intro id hid hsize
    have hvalf : ∀ e ∈ es.filter (fun e => e.id ≠ id), EntryValid e :=
      fun e he => hvs e (List.mem_of_mem_filter he)
    have hsave := saveEntries_quota s hvalf hsize
    simp only [deleteEntry, validateEntryId_of_format hid, hread]
    exact hsave
  · intro id u i vmsg vtags vcat hid hfind hu hsize
    obtain ⟨_, _, _, hvm, hvt, hvc⟩ := validateUpdates_inv hu
    have hilt : i < es.length := findIdxO_lt_length hfind
    have holdvalid : EntryValid (es.getD i default) := by
      rw [List.getD_eq_getElem es default hilt]
      exact hvs _ (List.getElem_mem hilt)
    have hvalset : ∀ e ∈ es.set i (mergeEntry (es.getD i default) vmsg vtags vcat),
        EntryValid e := by
      intro e he
      rcases List.mem_or_eq_of_mem_set he with h | h
      · exact hvs e h
      · rw [h]
        exact mergeEntry_valid holdvalid hvm hvt hvc
    have hsave := saveEntries_quota s hvalset hsize
    simp only [updateEntry, validateEntryId_of_format hid, hread, hfind, hu]
    exact hsave

/-- C8 witness: the quota failure surfacing through `saveEntries` and
`addEntry` on a one-entry collection. -/
theorem c8_quota_translated_witness :
    saveEntries true [witnessEntry] (.json (.arr [entryToStoredJson witnessEntry])) =
      (.error (.quotaExceededError
        "Storage quota exceeded. Please clear some entries."),
       .json (.arr [entryToStoredJson witnessEntry])) ∧
    deleteEntry true witnessUuid (.json (.arr [entryToStoredJson witnessEntry])) =
      (.error (.quotaExceededError
        "Storage quota exceeded. Please clear some entries."),
       .json (.arr [entryToStoredJson witnessEntry])) := by
  have hread : getEntries (.json (.arr [entryToStoredJson witnessEntry])) =
      ([witnessEntry], .json (.arr [entryToStoredJson witnessEntry])) := by
    have := getEntries_of_saved [witnessEntry]
      (by intro e he; rw [List.mem_singleton.1 he]; decide)
    simpa using this
  have h := c8_quota_translated (.json (.arr [entryToStoredJson witnessEntry]))
    [witnessEntry] hread
  refine ⟨h.1 ?_, h.2.2.1 witnessUuid (by decide) ?_⟩
  · simp [entryToStoredJson, witnessEntry, timeToIso, Json.serSize,
      Json.serSize.serSizeList, Json.serSize.serSizeFields, STORAGE_SIZE_LIMIT]
      <;> decide
  · simp [entryToStoredJson, witnessEntry, witnessUuid, timeToIso, Json.serSize,
      Json.serSize.serSizeList, Json.serSize.serSizeFields, STORAGE_SIZE_LIMIT]
      <;> decide

/-- A stored element whose `tags` field is absent or not an array parses with
the empty tag list substituted. -/
theorem parseTagsField_non_array {fields : List (String × Json)}
    (h : ∀ elts, jGet fields "tags" ≠ some (.arr elts)) :
    parseTagsField fields = some [] := by
  unfold parseTagsField
  rcases hg : jGet fields "tags" with _ | j
  · rfl
  · rcases j with _ | _ | _ | _ | elts | _
    case arr => exact absurd hg (h elts)
    all_goals rfl

/-- Inversion: a successfully parsed element's tag list is exactly what
`parseTagsField` produced for it. -/
theorem parseStoredEntry_tags {fields : List (String × Json)} {e : LogEntry}
    (h : parseStoredEntry (.obj fields) = some e) :
    parseTagsField fields = some e.tags := by
  rcases hidf : jGet fields "id" with _ | jid
  · simp [parseStoredEntry, hidf] at h
  rcases jid with _ | _ | _ | rawId | _ | _ <;>
    try (simp [parseStoredEntry, hidf] at h)
  rcases hmsgf : jGet fields "message" with _ | jmsg
  · simp [parseStoredEntry, hidf, hmsgf] at h
  rcases jmsg with _ | _ | _ | rawMsg | _ | _ <;>
    try (simp [parseStoredEntry, hidf, hmsgf] at h)
  rcases hvid : validateEntryId rawId with _ | id
  · simp [parseStoredEntry, hidf, hmsgf, hvid] at h
  rcases hvmsg : validateAndSanitizeText rawMsg with _ | msg
  · simp [parseStoredEntry, hidf, hmsgf, hvid, hvmsg] at h
  rcases htagsf : parseTagsField fields with _ | tags
  · simp [parseStoredEntry, hidf, hmsgf, hvid, hvmsg, htagsf] at h
  rcases hcatf : parseCategoryField fields with _ | cat
  · simp [parseStoredEntry, hidf, hmsgf, hvid, hvmsg, htagsf, hcatf] at h
  rcases htsf : parseTimestampField fields with _ | ts
  · simp [parseStoredEntry, hidf, hmsgf, hvid, hvmsg, htagsf, hcatf, htsf] at h
  simp only [parseStoredEntry, hidf, hmsgf, hvid, hvmsg, htagsf, hcatf, htsf] at h
  have he : e = ⟨id, msg, tags, cat, ts⟩ := (Option.some_inj.1 h).symm
  subst he
  rfl

/-- C9: every entry handed out by `getEntries` — in particular everything
readable back after a successful `saveEntries` — satisfies the data-model
invariants: the id is non-empty and in the generator's format, the message is
non-empty, the timestamp is a valid (in-range) point in time; `tags` is a
list by construction (never null), and an element whose stored `tags` field
is absent or not an array parses with the empty list substituted rather than
failing. -/
theorem c9_entry_invariants :
    (∀ s s' es, getEntries s = (es, s') → ∀ e ∈ es,
      e.id ≠ "" ∧ isGeneratedIdFormat e.id = true ∧
      e.message ≠ "" ∧ e.timestamp ≤ MAX_TIMESTAMP) ∧
    (∀ (quotaFail : Bool) (entries : List LogEntry) (s s' : Stored) (u : Unit),
      saveEntries quotaFail entries s = (.ok u, s') →
      ∀ e ∈ (getEntries s').1,
        e.id ≠ "" ∧ isGeneratedIdFormat e.id = true ∧
        e.message ≠ "" ∧ e.timestamp ≤ MAX_TIMESTAMP) ∧
    (∀ fields e, parseStoredEntry (.obj fields) = some e →
      (∀ elts, jGet fields "tags" ≠ some (.arr elts)) → e.tags = []) := by
  have hinv : ∀ s s' es, getEntries s = (es, s') → ∀ e ∈ es,
      e.id ≠ "" ∧ isGeneratedIdFormat e.id = true ∧
      e.message ≠ "" ∧ e.timestamp ≤ MAX_TIMESTAMP := by
    intro s s' es h e he
    obtain ⟨hid, hmsg, _, _, hts⟩ := getEntries_valid h e he
    exact ⟨hexId_ne_empty hid, hid, isSanitizedText_ne_empty hmsg, hts⟩
  refine ⟨hinv, ?_, ?_⟩
  · intro quotaFail entries s s' u _ e he
    exact hinv s' (getEntries s').2 (getEntries s').1 rfl e he
  · intro fields e hp hna
    have h1 := parseStoredEntry_tags hp
    rw [parseTagsField_non_array hna] at h1
    exact (Option.some_inj.1 h1).symm

/-- C9 witness: the invariants on a concrete read, and the empty-list
substitution for an object stored without a `tags` array. -/
theorem c9_entry_invariants_witness :
    (witnessEntry.id ≠ "" ∧ isGeneratedIdFormat witnessEntry.id = true ∧
      witnessEntry.message ≠ "" ∧ witnessEntry.timestamp ≤ MAX_TIMESTAMP) ∧
    (⟨"00000000000000000000000000000000", "Hi", [], none, 5⟩ : LogEntry).tags
      = [] := by
  have hread : getEntries (.json (.arr [entryToStoredJson witnessEntry])) =
      ([witnessEntry], .json (.arr [entryToStoredJson witnessEntry])) := by
    have := getEntries_of_saved [witnessEntry]
      (by intro e he; rw [List.mem_singleton.1 he]; decide)
    simpa using this
  constructor
  · exact c9_entry_invariants.1 _ _ [witnessEntry] hread witnessEntry
      (List.mem_singleton.2 rfl)
  · exact c9_entry_invariants.2.2
      [("id", .str "00000000000000000000000000000000"), ("message", .str "Hi"),
       ("timestamp", .str (timeToIso 5))]
      ⟨"00000000000000000000000000000000", "Hi", [], none, 5⟩
      (by rw [show timeToIso 5 = "5Z" from rfl]; rfl)
      (fun elts h => Option.noConfusion h)

/-- C10: an empty-string category is falsy, so the public interface treats it
as absent rather than invalid: `addEntry` with category `""` succeeds and
creates an entry with no category, and `updateEntry` with category `""`
succeeds and clears the existing entry's category; neither raises a
validation error. -/
theorem c10_empty_category (s : Stored) (es : List LogEntry)
    (hread : getEntries s = (es, s)) :
    (∀ freshId now message tags msg' tags',
      validateAndSanitizeText message = some msg' →
      validateTags tags = some tags' →
      es.length < 10000 → isGeneratedIdFormat freshId = true →
      now ≤ MAX_TIMESTAMP →
      (Json.arr ((es ++ [(⟨freshId, msg', tags', none, now⟩ : LogEntry)]).map
        entryToStoredJson)).serSize ≤ STORAGE_SIZE_LIMIT →
      addEntry false freshId now ⟨message, tags, some ""⟩ s =
        (.ok ⟨freshId, msg', tags', none, now⟩,
         .json (.arr ((es ++ [(⟨freshId, msg', tags', none, now⟩ : LogEntry)]).map
           entryToStoredJson)))) ∧
    (∀ id i uid uts, isGeneratedIdFormat id = true →
      findIdxO (fun e => e.id = id) es = some i →
      (Json.arr ((es.set i (mergeEntry (es.getD i default) none none
        (some none))).map entryToStoredJson)).serSize ≤ STORAGE_SIZE_LIMIT →
      updateEntry false id ⟨uid, none, none, some "", uts⟩ s =
        (.ok (), .json (.arr ((es.set i (mergeEntry (es.getD i default) none
          none (some none))).map entryToStoredJson))) ∧
      (mergeEntry (es.getD i default) none none (some none)).category = none) := by
  have hvs : ∀ e ∈ es, EntryValid e := getEntries_valid hread
  constructor
  · intro freshId now message tags msg' tags' hmsg htags hlt hid hnow hsize
    have hval : validateAddInput ⟨message, tags, some ""⟩ =
        .ok (msg', tags', none) := by
      simp [validateAddInput, hmsg, htags,
        show ("" : String).isEmpty = true from rfl]
    have hvalall : ∀ e ∈ es ++ [(⟨freshId, msg', tags', none, now⟩ : LogEntry)],
        EntryValid e := by
      intro e he
      rcases List.mem_append.1 he with h | h
      · exact hvs e h
      · rw [List.mem_singleton.1 h]
        exact newEntry_valid hval hid hnow
    have hsave := saveEntries_ok s hvalall hsize
    simp [addEntry, hval, hread, Nat.not_le.2 hlt, hsave]
  · intro id i uid uts hid hfind hsize
    have hu : validateUpdates ⟨uid, none, none, some "", uts⟩ =
        .ok (none, none, some none) := by
      simp [validateUpdates, show ("" : String).isEmpty = true from rfl]
    have hilt : i < es.length := findIdxO_lt_length hfind
    have holdvalid : EntryValid (es.getD i default) := by
      rw [List.getD_eq_getElem es default hilt]
      exact hvs _ (List.getElem_mem hilt)
    have hmergedvalid : EntryValid (mergeEntry (es.getD i default) none none
        (some none)) := by
      apply mergeEntry_valid holdvalid
      · intro m hm
        exact absurd hm (Option.noConfusion)
      · intro ts hts
        exact absurd hts (Option.noConfusion)
      · intro c hc
        exact absurd (Option.some_inj.1 hc) (Option.noConfusion)
    have hvalset : ∀ e ∈ es.set i (mergeEntry (es.getD i default) none none
        (some none)), EntryValid e := by
      intro e he
      rcases List.mem_or_eq_of_mem_set he with h | h
      · exact hvs e h
      · rw [h]
        exact hmergedvalid
    have hsave := saveEntries_ok s hvalset hsize
    constructor
    · simp only [updateEntry, validateEntryId_of_format hid, hread, hfind, hu]
      exact hsave
    · simp [mergeEntry]

/-- C10 witness: adding with category `""` yields an entry without category;
updating the only entry with category `""` clears its category. -/
theorem c10_empty_category_witness :
    addEntry false witnessUuid 7 ⟨"Note", [], some ""⟩ Stored.absent =
      (.ok ⟨witnessUuid, "Note", [], none, 7⟩,
       .json (.arr ([(⟨witnessUuid, "Note", [], none, 7⟩ : LogEntry)].map
         entryToStoredJson))) ∧
    (mergeEntry witnessEntry none none (some none)).category = none := by
  have hread : getEntries (.json (.arr [entryToStoredJson witnessEntry])) =
      ([witnessEntry], .json (.arr [entryToStoredJson witnessEntry])) := by
    have := getEntries_of_saved [witnessEntry]
      (by intro e he; rw [List.mem_singleton.1 he]; decide)
    simpa using this
  constructor
  · have h := (c10_empty_category Stored.absent [] rfl).1 witnessUuid 7
      "Note" [] "Note" [] rfl rfl (by decide) (by decide) (by decide)
      (by simp [entryToStoredJson, witnessUuid, timeToIso, Json.serSize,
        Json.serSize.serSizeList, Json.serSize.serSizeFields, STORAGE_SIZE_LIMIT]
          <;> decide)
    simpa using h
  · exact ((c10_empty_category (.json (.arr [entryToStoredJson witnessEntry]))
      [witnessEntry] hread).2 witnessEntry.id 0 none none (by decide) rfl
      (by simp [entryToStoredJson, witnessEntry, mergeEntry, timeToIso,
        Json.serSize, Json.serSize.serSizeList, Json.serSize.serSizeFields,
        STORAGE_SIZE_LIMIT]
          <;> decide)).2

end DevLog
